import Mathlib

/-!
# Burkhard-Keller tree (`SandyzCodeZine/BkTree.cpp`)

A shallow embedding of the class template `BkTree<T, Distance>` and the
properties of `insert`, `size`, `empty`, `count` and `getWithinDistance`.

Modelling decisions

* `BkTree.Node T` is the C++ `Node*`: `null` is `NULL`, `mk` is a pointer to a
  node with its four fields.  Every node is owned by exactly one pointer, so a
  pointer and the structure it points to are the same value.
* The template parameter `Distance` is an explicit argument
  `Distance : T → T → Int`.
* `int` is modelled by `Int`.  Distances are compared and stored, never
  combined, except in the band test of `getWithinDistance` (line 89), which
  computes `d - k` and `d + k`.  The band test has two embeddings:
  `pushChildren32` / `bfs32` / `getWithinDistance32` compute `d - k` and `d + k`
  as the 32-bit two's complement `int` of the code does (`wrap32`);
  `pushChildren` / `bfs` / `getWithinDistance` compute them in exact integers
  and agree with the former whenever `d - k` and `d + k` do not overflow
  (`getWithinDistance32_eq_of_exact`).
* `assert( k >= 0 )` is the only way a member function fails; it is the
  `Except.error Failure.assertion` result of `getWithinDistance`.
* `vector<T> *result` is an `Option (List T)`: `none` is the `NULL` default,
  `some r` a vector with contents `r`; `push_back` appends at the end.

The file also embeds `EditDistance`, the distance function of the test program
in `BkTree.cpp`, and `erase` / `restore` of `DList` (`SandyzCodeZine/dlinks.cpp`).
-/

/-- The C++ `Node*`: `null` is `NULL`, `mk item distToParent firstChild nextSibling`
points to a node with these fields. -/
inductive BkTree.Node (T : Type) where
  | null : BkTree.Node T
  | mk (item : T) (distToParent : Int) (firstChild nextSibling : BkTree.Node T) : BkTree.Node T

/-- The data members of `BkTree`. -/
structure BkTree (T : Type) where
  root_ : BkTree.Node T
  size_ : Int

/-- The one failure of the class: a failed `assert`. -/
inductive Failure where
  | assertion : Failure
  deriving DecidableEq

namespace BkTree

variable {T : Type}

/-- The constructor `BkTree() { root_ = NULL; size_ = 0; }`. -/
def new : BkTree T := ⟨Node.null, 0⟩

/-- The inner loop of `insert` (lines 43-48) started at `ch`, looking for a
child with `distToParent == d`, together with everything that follows a
successful `t = ch; break;`: the next iterations of the outer loop at `ch`.

* `none`: the scan ran off the end of the sibling chain (`!ch` at line 49);
* `some (chain, added)`: a child with distance `d` was found and the outer loop
  went on from it; `chain` is the sibling chain after the call and `added`
  tells whether a node was created (`size_++`). -/
def scan (Distance : T → T → Int) (item : T) (d : Int) : Node T → Option (Node T × Bool)
  | Node.null => none
  | Node.mk it dp fc ns =>
    if dp = d then
      -- t = ch; break;  then lines 41-56 with t = ch
      let d2 := Distance it item
      if d2 = 0 then some (Node.mk it dp fc ns, false)
      else
        match scan Distance item d2 fc with
        | some (fc2, added) => some (Node.mk it dp fc2 ns, added)
        | none => some (Node.mk it dp (Node.mk item d2 Node.null fc) ns, true)
    else
      -- ch = ch->nextSibling;
      match scan Distance item d ns with
      | some (ns2, added) => some (Node.mk it dp fc ns2, added)
      | none => none

/-- The member `void insert(T item)`. -/
def insert (Distance : T → T → Int) (tr : BkTree T) (item : T) : BkTree T :=
  match tr.root_ with
  | Node.null => ⟨Node.mk item (-1) Node.null Node.null, 1⟩
  | Node.mk it dp fc ns =>
    let d := Distance it item
    if d = 0 then tr
    else
      match scan Distance item d fc with
      | some (fc2, added) => ⟨Node.mk it dp fc2 ns, if added then tr.size_ + 1 else tr.size_⟩
      | none => ⟨Node.mk it dp (Node.mk item d Node.null fc) ns, tr.size_ + 1⟩

/-- The member `int size() const`. -/
def size (tr : BkTree T) : Int := tr.size_

/-- The member `bool empty() const { return !size_; }`. -/
def empty (tr : BkTree T) : Bool := decide (tr.size_ = 0)

/-- The inner loop of `getWithinDistance` (lines 86-92): every child in the
band `d - k ≤ distToParent ≤ d + k` is pushed at the back of the queue.  Here
`d - k` and `d + k` are exact integers; `pushChildren32` wraps them as `int`
does. -/
def pushChildren (d k : Int) : Node T → List (Node T) → List (Node T)
  | Node.null, q => q
  | Node.mk it dp fc ns, q =>
    if d - k ≤ dp ∧ dp ≤ d + k then pushChildren d k ns (q ++ [Node.mk it dp fc ns])
    else pushChildren d k ns q

/-- Number of nodes reachable from a pointer through `firstChild` and
`nextSibling`. -/
def weight : Node T → Nat
  | Node.null => 0
  | Node.mk _ _ fc ns => 1 + weight fc + weight ns

/-- Number of nodes that a queued pointer can still cause to be visited: the
node itself and what hangs below its `firstChild`. -/
def visitCost : Node T → Nat
  | Node.null => 1
  | Node.mk _ _ fc _ => 1 + weight fc

/-- The termination measure of the queue loop. -/
def queueCost (q : List (Node T)) : Nat := (q.map visitCost).sum

/-- The loop `while( !q.empty() )` of `getWithinDistance` (lines 80-93), from
the state `(q, found, *result)` to the final `(found, *result)`.  The head of
the list is the front of the queue.  A null pointer is never pushed; the
case is there because the queue type admits it. -/
def bfs (Distance : T → T → Int) (center : T) (k : Int) :
    List (Node T) → Int → Option (List T) → Int × Option (List T)
  | [], found, result => (found, result)
  | Node.null :: q, found, result => bfs Distance center k q found result
  | Node.mk it _ fc _ :: q, found, result =>
    let d := Distance it center
    bfs Distance center k (pushChildren d k fc q)
      (if d ≤ k then found + 1 else found)
      (if d ≤ k then result.map (fun r => r ++ [it]) else result)
termination_by q => queueCost q
decreasing_by
  · simp [queueCost, visitCost]
  · have key : ∀ (ch : Node T) (q0 : List (Node T)),
        queueCost (pushChildren (Distance it center) k ch q0) ≤ queueCost q0 + weight ch := by
      intro ch
      induction ch with
      | null => intro q0; simp [pushChildren, weight]
      | mk it2 dp2 fc2 ns2 _ ihn =>
        intro q0
        simp only [pushChildren, weight]
        split
        · have h := ihn (q0 ++ [Node.mk it2 dp2 fc2 ns2])
          simp only [queueCost, List.map_append, List.sum_append, List.map_cons, List.map_nil,
            List.sum_cons, List.sum_nil, visitCost] at h ⊢
          omega
        · have h := ihn q0
          omega
    have h := key fc q
    simp only [queueCost, List.map_cons, List.sum_cons, visitCost] at h ⊢
    omega

/-- The member `int getWithinDistance(T center, int k, vector<T> *result = NULL) const`:
the returned `int` and the final contents of `*result`, with the band bounds
`d - k` and `d + k` in exact integers (`getWithinDistance32` wraps them). -/
def getWithinDistance (Distance : T → T → Int) (tr : BkTree T) (center : T) (k : Int)
    (result : Option (List T)) : Except Failure (Int × Option (List T)) :=
  if k < 0 then Except.error Failure.assertion   -- assert( k >= 0 );
  else
    match tr.root_ with
    | Node.null => Except.ok (0, result)          -- if( !root_ ) return 0;
    | Node.mk it dp fc ns => Except.ok (bfs Distance center k [Node.mk it dp fc ns] 0 result)

/-- The member `int count( T item ) const { return getWithinDistance( item, 0 ); }`. -/
def count (Distance : T → T → Int) (tr : BkTree T) (item : T) : Except Failure Int :=
  (getWithinDistance Distance tr item 0 none).map Prod.fst

/-- A newly constructed tree after the calls `insert(x)` for `x` in `xs`, in order. -/
def insertAll (Distance : T → T → Int) (xs : List T) : BkTree T :=
  xs.foldl (insert Distance) new

/-! ### Specification vocabulary -/

/-- Every item stored at or below a pointer: the node, its descendants, its
later siblings and their descendants. -/
def Node.items : Node T → List T
  | Node.null => []
  | Node.mk it _ fc ns => it :: (Node.items fc ++ Node.items ns)

/-- The `distToParent` fields along a sibling chain. -/
def Node.dists : Node T → List Int
  | Node.null => []
  | Node.mk _ dp _ ns => dp :: Node.dists ns

/-- The elements stored in the tree. -/
def elements (tr : BkTree T) : List T := Node.items tr.root_

/-- The structural invariant of the chain of children of a node with item `p`:
each child subtree holds only elements at distance exactly `distToParent` from
`p`, no `distToParent` is zero, siblings have different `distToParent`, and the
same holds below every child. -/
def Node.ChildrenOK (Distance : T → T → Int) (p : T) : Node T → Prop
  | Node.null => True
  | Node.mk it dp fc ns =>
    (∀ x ∈ it :: Node.items fc, Distance p x = dp) ∧ dp ≠ 0 ∧ dp ∉ Node.dists ns ∧
      Node.ChildrenOK Distance it fc ∧ Node.ChildrenOK Distance p ns

/-- The invariant of a tree: the root has no sibling, the children invariant
holds below it, and `size_` counts the nodes. -/
def WellFormed (Distance : T → T → Int) (tr : BkTree T) : Prop :=
  tr.size_ = (weight tr.root_ : Int) ∧
    match tr.root_ with
    | Node.null => True
    | Node.mk it _ fc ns => ns = Node.null ∧ Node.ChildrenOK Distance it fc

/-- The relation between a pointer structure and `item` and the structure with exactly one more
node: a leaf holding `item`, put at the front of the children of some node
`t`, with `distToParent = Distance t.item item`.  Every other field of every
node is the same on both sides. -/
inductive Attached (Distance : T → T → Int) (item : T) : Node T → Node T → Prop
  | here (it : T) (dp : Int) (fc ns : Node T) :
      Attached Distance item (Node.mk it dp fc ns)
        (Node.mk it dp (Node.mk item (Distance it item) Node.null fc) ns)
  | child (it : T) (dp : Int) (fc fc2 ns : Node T) :
      Attached Distance item fc fc2 →
      Attached Distance item (Node.mk it dp fc ns) (Node.mk it dp fc2 ns)
  | sibling (it : T) (dp : Int) (fc ns ns2 : Node T) :
      Attached Distance item ns ns2 →
      Attached Distance item (Node.mk it dp fc ns) (Node.mk it dp fc ns2)

/-- The items emitted below a sibling chain whose parent is at distance `d`
from `center`, in depth-first order: a child outside the band contributes
nothing, a child inside the band contributes what visiting it emits. -/
def reach (Distance : T → T → Int) (center : T) (k : Int) (d : Int) : Node T → List T
  | Node.null => []
  | Node.mk it dp fc ns =>
    (if d - k ≤ dp ∧ dp ≤ d + k then
        (if Distance it center ≤ k then [it] else []) ++
          reach Distance center k (Distance it center) fc
      else []) ++ reach Distance center k d ns

/-- The items emitted because of one queued pointer. -/
def visited (Distance : T → T → Int) (center : T) (k : Int) : Node T → List T
  | Node.null => []
  | Node.mk it _ fc _ =>
    (if Distance it center ≤ k then [it] else []) ++
      reach Distance center k (Distance it center) fc

/-- The items emitted because of the pointers of a queue. -/
def visitedAll (Distance : T → T → Int) (center : T) (k : Int) : List (Node T) → List T
  | [] => []
  | t :: q => visited Distance center k t ++ visitedAll Distance center k q

/-- The contract of the template parameter `Distance`: a metric. -/
structure IsMetric (Distance : T → T → Int) : Prop where
  nonneg : ∀ x y, 0 ≤ Distance x y
  symm : ∀ x y, Distance x y = Distance y x
  eq_zero_iff : ∀ x y, Distance x y = 0 ↔ x = y
  triangle : ∀ x y z, Distance x z ≤ Distance x y + Distance y z

/-- The brute-force scan of the test: the pairwise-distinct inserted elements
within distance `k` of `center`. -/
def bruteForce [DecidableEq T] (Distance : T → T → Int) (xs : List T) (center : T) (k : Int) :
    List T :=
  xs.dedup.filter (fun x => decide (Distance x center ≤ k))

/-- A concrete metric on the integers, `|a - b|`, used to instantiate the
theorems below. -/
def absDist (a b : Int) : Int := |a - b|

end BkTree

namespace BkTree

variable {T : Type}

/-- The pointers along the sibling chain that starts at a pointer: the node,
its `nextSibling`, and so on up to `NULL`. -/
def Node.chain : Node T → List (Node T)
  | Node.null => []
  | Node.mk it dp fc ns => Node.mk it dp fc ns :: Node.chain ns

/-- Every node at or below a pointer: the node, its descendants, its later
siblings and their descendants. -/
def Node.nodes : Node T → List (Node T)
  | Node.null => []
  | Node.mk it dp fc ns => Node.mk it dp fc ns :: (Node.nodes fc ++ Node.nodes ns)

end BkTree

namespace BkTree

/-- A distance function on three points that is non-negative, symmetric and
zero exactly on equal arguments, and that violates the triangle inequality:
the points 0 and 1 are at distance 5, every other pair of different points at
distance 1. -/
def brokenDist (a b : Fin 3) : Int :=
  if a = b then 0
  else if (a = 0 ∧ b = 1) ∨ (a = 1 ∧ b = 0) then 5
  else 1

end BkTree

/-! ### `EditDistance` (the distance function of the test program)

`string` is a `List Char`; `vector< vector< int > > tab` is a `List (List Int)`.
Every index the function uses is in range. -/

/-- The read `tab[i][j]`. -/
def EditDistance.get (tab : List (List Int)) (i j : Nat) : Int :=
  (tab.getD i []).getD j 0

/-- The write `tab[i][j] = v`. -/
def EditDistance.set (tab : List (List Int)) (i j : Nat) (v : Int) : List (List Int) :=
  tab.set i ((tab.getD i []).set j v)

/-- The body of the two loops (lines 136-137) at `(i, j)`: the value stored
in `tab[i][j]`.  `a <? b` is the minimum of `a` and `b` and associates to the
left. -/
def EditDistance.cell (s t : List Char) (tab : List (List Int)) (i j : Nat) : Int :=
  if s.getD i default = t.getD j default then EditDistance.get tab (i + 1) (j + 1)
  else 1 + min (min (EditDistance.get tab (i + 1) j) (EditDistance.get tab i j))
    (EditDistance.get tab i (j + 1))

/-- The loop `for( int j = n - 1; j >= 0; j-- )` with `c` iterations left: the
next index is `j = c - 1`. -/
def EditDistance.inner (s t : List Char) (i : Nat) : Nat → List (List Int) → List (List Int)
  | 0, tab => tab
  | j + 1, tab =>
    EditDistance.inner s t i j (EditDistance.set tab i j (EditDistance.cell s t tab i j))

/-- The loop `for( int i = m - 1; i >= 0; i-- )` with `c` iterations left: the
next index is `i = c - 1`. -/
def EditDistance.outer (s t : List Char) : Nat → List (List Int) → List (List Int)
  | 0, tab => tab
  | i + 1, tab => EditDistance.outer s t i (EditDistance.inner s t i t.length tab)

/-- The function `int EditDistance( const string &s, const string &t )`. -/
def EditDistance (s t : List Char) : Int :=
  EditDistance.get
    (EditDistance.outer s t s.length
      (List.replicate (s.length + 1) (List.replicate (t.length + 1) 0))) 0 0

/-! ### `getWithinDistance` with 32-bit `int` arithmetic in the band test -/

namespace BkTree

variable {T : Type}

/-- The value of a 32-bit two's complement `int` after an operation whose
exact result is `x`: the representative of `x` modulo `2^32` in
`[-2^31, 2^31)`. -/
def wrap32 (x : Int) : Int := (x + 2147483648) % 4294967296 - 2147483648

/-- The inner loop of `getWithinDistance` (lines 86-92) with `d - k` and
`d + k` computed in 32-bit two's complement. -/
def pushChildren32 (d k : Int) : Node T → List (Node T) → List (Node T)
  | Node.null, q => q
  | Node.mk it dp fc ns, q =>
    if wrap32 (d - k) ≤ dp ∧ dp ≤ wrap32 (d + k) then
      pushChildren32 d k ns (q ++ [Node.mk it dp fc ns])
    else pushChildren32 d k ns q

/-- The queue loop of `getWithinDistance` (lines 80-93) with the 32-bit band
test. -/
def bfs32 (Distance : T → T → Int) (center : T) (k : Int) :
    List (Node T) → Int → Option (List T) → Int × Option (List T)
  | [], found, result => (found, result)
  | Node.null :: q, found, result => bfs32 Distance center k q found result
  | Node.mk it _ fc _ :: q, found, result =>
    let d := Distance it center
    bfs32 Distance center k (pushChildren32 d k fc q)
      (if d ≤ k then found + 1 else found)
      (if d ≤ k then result.map (fun r => r ++ [it]) else result)
termination_by q => queueCost q
decreasing_by
  · simp [queueCost, visitCost]
  · have key : ∀ (ch : Node T) (q0 : List (Node T)),
        queueCost (pushChildren32 (Distance it center) k ch q0) ≤ queueCost q0 + weight ch := by
      intro ch
      induction ch with
      | null => intro q0; simp [pushChildren32, weight]
      | mk it2 dp2 fc2 ns2 _ ihn =>
        intro q0
        simp only [pushChildren32, weight]
        split
        · have h := ihn (q0 ++ [Node.mk it2 dp2 fc2 ns2])
          simp only [queueCost, List.map_append, List.sum_append, List.map_cons, List.map_nil,
            List.sum_cons, List.sum_nil, visitCost] at h ⊢
          omega
        · have h := ihn q0
          omega
    have h := key fc q
    simp only [queueCost, List.map_cons, List.sum_cons, visitCost] at h ⊢
    omega

/-- The member `getWithinDistance` with the 32-bit band test. -/
def getWithinDistance32 (Distance : T → T → Int) (tr : BkTree T) (center : T) (k : Int)
    (result : Option (List T)) : Except Failure (Int × Option (List T)) :=
  if k < 0 then Except.error Failure.assertion
  else
    match tr.root_ with
    | Node.null => Except.ok (0, result)
    | Node.mk it dp fc ns => Except.ok (bfs32 Distance center k [Node.mk it dp fc ns] 0 result)

/-- The discrete metric on two points: 0 on equal arguments, 1 otherwise. -/
def discreteDist (a b : Bool) : Int := if a = b then 0 else 1

end BkTree

/-! ### Dancing links (`SandyzCodeZine/dlinks.cpp`)

A node lives at an address (`Nat`); a `Node< T >*` is an `Option Nat`, `none`
being `NULL`.  The state of a list is the memory that holds the nodes together
with the members `first`, `last` and `size` of `DList`. -/

/-- The struct `Node< T >` of dlinks.cpp. -/
structure DList.Node (T : Type) where
  v : T
  l : Option Nat
  r : Option Nat

/-- The class `DList< T >` together with the memory its nodes live in. -/
structure DList (T : Type) where
  mem : Nat → DList.Node T
  first : Option Nat
  last : Option Nat
  size : Int

namespace DList

variable {T : Type}

/-- The assignment `p->r = q`. -/
def setR (mem : Nat → DList.Node T) (p : Nat) (q : Option Nat) : Nat → DList.Node T :=
  fun a => if a = p then { mem a with r := q } else mem a

/-- The assignment `p->l = q`. -/
def setL (mem : Nat → DList.Node T) (p : Nat) (q : Option Nat) : Nat → DList.Node T :=
  fun a => if a = p then { mem a with l := q } else mem a

/-- The first statement of `erase`: `if( x->l ) x->l->r = x->r; else first = x->r;`. -/
def eraseLeft (s : DList T) (x : Nat) : DList T :=
  match (s.mem x).l with
  | some p => { s with mem := setR s.mem p (s.mem x).r }
  | none => { s with first := (s.mem x).r }

/-- The second statement of `erase`: `if( x->r ) x->r->l = x->l; else last = x->l;`. -/
def eraseRight (s : DList T) (x : Nat) : DList T :=
  match (s.mem x).r with
  | some n => { s with mem := setL s.mem n (s.mem x).l }
  | none => { s with last := (s.mem x).l }

/-- The member `void erase( Node< T > *x )`. -/
def erase (s : DList T) (x : Nat) : DList T :=
  let s2 := eraseRight (eraseLeft s x) x
  { s2 with size := s2.size - 1 }

/-- The first statement of `restore`: `if( x->l ) x->l->r = x; else first = x;`. -/
def restoreLeft (s : DList T) (x : Nat) : DList T :=
  match (s.mem x).l with
  | some p => { s with mem := setR s.mem p (some x) }
  | none => { s with first := some x }

/-- The second statement of `restore`: `if( x->r ) x->r->l = x; else last = x;`. -/
def restoreRight (s : DList T) (x : Nat) : DList T :=
  match (s.mem x).r with
  | some n => { s with mem := setL s.mem n (some x) }
  | none => { s with last := some x }

/-- The member `void restore( Node< T > *x )`. -/
def restore (s : DList T) (x : Nat) : DList T :=
  let s2 := restoreRight (restoreLeft s x) x
  { s2 with size := s2.size + 1 }

/-- The calls `erase(x)` for `x` in `xs`, in order. -/
def eraseAll (s : DList T) (xs : List Nat) : DList T := xs.foldl erase s

/-- The calls `restore(x)` for `x` in `xs`, in order. -/
def restoreAll (s : DList T) (xs : List Nat) : DList T := xs.foldl restore s

/-- The nodes at the addresses `ms` are linked one after the other through `l`
and `r`: the `l` of the first one is `prev`, the `r` of the last one is `NULL`,
and `lst` is the address of the last one (`prev` when there is none). -/
def Linked (mem : Nat → DList.Node T) : Option Nat → List Nat → Option Nat → Prop
  | prev, [], lst => lst = prev
  | prev, a :: as, lst =>
    (mem a).l = prev ∧ (mem a).r = as.head? ∧ Linked mem (some a) as lst

/-- The state is the doubly linked list of the nodes at the pairwise different
addresses `ms`, in this order. -/
def IsList (s : DList T) (ms : List Nat) : Prop :=
  ms.Nodup ∧ s.first = ms.head? ∧ Linked s.mem none ms s.last ∧ s.size = (ms.length : Int)

/-- The node at address `x` is a member of the list. -/
def Member (s : DList T) (x : Nat) : Prop := ∃ ms : List Nat, IsList s ms ∧ x ∈ ms

/-- The nodes `xs` can be erased in this order, each being a member of the list
at the time it is erased. -/
inductive Erasable : DList T → List Nat → Prop
  | nil (s : DList T) : Erasable s []
  | cons (s : DList T) (x : Nat) (xs : List Nat) :
      Member s x → Erasable (erase s x) xs → Erasable s (x :: xs)

/-- The neighbours of `x` point to `x`: what `restore` relies on. -/
def Hooked (s : DList T) (x : Nat) : Prop :=
  (match (s.mem x).l with
    | some p => (s.mem p).r = some x ∧ p ≠ x
    | none => s.first = some x) ∧
  (match (s.mem x).r with
    | some n => (s.mem n).l = some x ∧ n ≠ x
    | none => s.last = some x)

/-- The memory of a list of three nodes at the addresses 1, 2, 3 with the values
10, 20, 30. -/
def threeMem : Nat → DList.Node Int
  | 1 => ⟨10, none, some 2⟩
  | 2 => ⟨20, some 1, some 3⟩
  | 3 => ⟨30, some 2, none⟩
  | _ => ⟨0, none, none⟩

/-- The list of the three nodes of `threeMem`. -/
def three : DList Int := ⟨threeMem, some 1, some 3, 3⟩

end DList

/-! ## Lemmas on `insert` -/

namespace BkTree

variable {T : Type}

theorem scan_none_iff (Distance : T → T → Int) (item : T) (ch : Node T) (d : Int) :
    scan Distance item d ch = none ↔ d ∉ Node.dists ch := by
  induction ch generalizing d with
  | null => simp [scan, Node.dists]
  | mk it dp fc ns _ ihn =>
    unfold scan
    by_cases h : dp = d
    · simp only [h, if_true, Node.dists, List.mem_cons, true_or, not_true_eq_false, iff_false]
      split
      · simp
      · split <;> simp
    · have hn := ihn d
      have h2 : ¬ d = dp := fun e => h e.symm
      simp only [h, if_false, Node.dists, List.mem_cons, h2, false_or]
      rw [← hn]
      split
      · rename_i e; simp [e]
      · rename_i e; simp [e]

/-- A call of `scan` that finds the child either changes nothing or attaches
exactly one leaf. -/
theorem scan_some_cases (Distance : T → T → Int) (item : T) (ch : Node T) (d : Int)
    (c2 : Node T) (b : Bool) (h : scan Distance item d ch = some (c2, b)) :
    (b = false ∧ c2 = ch) ∨ (b = true ∧ Attached Distance item ch c2) := by
  induction ch generalizing d c2 b with
  | null => simp [scan] at h
  | mk it dp fc ns ihc ihn =>
    unfold scan at h
    by_cases hd : dp = d
    · simp only [hd, if_true] at h
      by_cases h0 : Distance it item = 0
      · simp only [h0, if_true, Option.some.injEq, Prod.mk.injEq] at h
        exact Or.inl ⟨h.2.symm, by rw [← h.1, hd]⟩
      · simp only [h0, if_false] at h
        cases hs : scan Distance item (Distance it item) fc with
        | none =>
          simp only [hs, Option.some.injEq, Prod.mk.injEq] at h
          refine Or.inr ⟨h.2.symm, ?_⟩
          rw [← h.1, ← hd]
          exact Attached.here it dp fc ns
        | some r =>
          obtain ⟨fc2, added⟩ := r
          simp only [hs, Option.some.injEq, Prod.mk.injEq] at h
          rcases ihc _ _ _ hs with ⟨hb, hc⟩ | ⟨hb, hc⟩
          · exact Or.inl ⟨by rw [← h.2, hb], by rw [← h.1, hc, hd]⟩
          · refine Or.inr ⟨by rw [← h.2, hb], ?_⟩
            rw [← h.1, ← hd]
            exact Attached.child it dp fc fc2 ns hc
    · simp only [hd, if_false] at h
      cases hs : scan Distance item d ns with
      | none => simp [hs] at h
      | some r =>
        obtain ⟨ns2, added⟩ := r
        simp only [hs, Option.some.injEq, Prod.mk.injEq] at h
        rcases ihn _ _ _ hs with ⟨hb, hc⟩ | ⟨hb, hc⟩
        · exact Or.inl ⟨by rw [← h.2, hb], by rw [← h.1, hc]⟩
        · refine Or.inr ⟨by rw [← h.2, hb], ?_⟩
          rw [← h.1]
          exact Attached.sibling it dp fc ns ns2 hc

theorem Attached.items_perm {Distance : T → T → Int} {item : T} {a b : Node T}
    (h : Attached Distance item a b) : (Node.items b).Perm (item :: Node.items a) := by
  induction h with
  | here it dp fc ns =>
    simp only [Node.items, List.nil_append]
    exact List.Perm.swap item it _
  | child it dp fc fc2 ns _ ih =>
    simp only [Node.items]
    refine List.Perm.trans ?_ (List.Perm.swap item it _)
    refine List.Perm.cons it ?_
    exact (List.Perm.append_right _ ih)
  | sibling it dp fc ns ns2 _ ih =>
    simp only [Node.items]
    refine List.Perm.trans ?_ (List.Perm.swap item it _)
    refine List.Perm.cons it ?_
    refine List.Perm.trans (List.Perm.append_left _ ih) ?_
    exact List.perm_middle

theorem Attached.dists_eq {Distance : T → T → Int} {item : T} {a b : Node T}
    (h : Attached Distance item a b) : Node.dists b = Node.dists a := by
  induction h with
  | here it dp fc ns => rfl
  | child it dp fc fc2 ns _ _ => rfl
  | sibling it dp fc ns ns2 _ ih => simp only [Node.dists, ih]

theorem Attached.weight_eq {Distance : T → T → Int} {item : T} {a b : Node T}
    (h : Attached Distance item a b) : weight b = weight a + 1 := by
  induction h with
  | here it dp fc ns => simp only [weight]; omega
  | child it dp fc fc2 ns _ ih => simp only [weight, ih]; omega
  | sibling it dp fc ns ns2 _ ih => simp only [weight, ih]; omega

theorem items_length (a : Node T) : (Node.items a).length = weight a := by
  induction a with
  | null => rfl
  | mk it dp fc ns ihc ihn => simp only [Node.items, weight, List.length_cons, List.length_append, ihc, ihn]; omega

/-- Below a well-formed chain of children of `p`, the distance of `p` to a
stored element is the `distToParent` of one of the children. -/
theorem ChildrenOK.dist_mem {Distance : T → T → Int} {p : T} {ch : Node T}
    (hok : Node.ChildrenOK Distance p ch) {x : T} (hx : x ∈ Node.items ch) :
    Distance p x ∈ Node.dists ch := by
  induction ch with
  | null => simp [Node.items] at hx
  | mk it dp fc ns _ ihn =>
    obtain ⟨h1, _, _, _, h5⟩ := hok
    simp only [Node.items, List.mem_cons, List.mem_append] at hx
    simp only [Node.dists, List.mem_cons]
    rcases hx with hx | hx | hx
    · exact Or.inl (h1 x (by simp [hx]))
    · exact Or.inl (h1 x (by simp [hx]))
    · exact Or.inr (ihn h5 hx)

/-- The children invariant survives `scan`, for every distance function. -/
theorem scan_childrenOK (Distance : T → T → Int) (item : T) (ch : Node T) (p : T)
    (c2 : Node T) (b : Bool) (hok : Node.ChildrenOK Distance p ch)
    (h : scan Distance item (Distance p item) ch = some (c2, b)) :
    Node.ChildrenOK Distance p c2 := by
  induction ch generalizing p c2 b with
  | null => simp [scan] at h
  | mk it dp fc ns ihc ihn =>
    obtain ⟨h1, h2, h3, h4, h5⟩ := hok
    unfold scan at h
    by_cases hd : dp = Distance p item
    · simp only [hd, if_true] at h
      by_cases h0 : Distance it item = 0
      · simp only [h0, if_true, Option.some.injEq, Prod.mk.injEq] at h
        rw [← h.1, ← hd]
        exact ⟨h1, h2, h3, h4, h5⟩
      · simp only [h0, if_false] at h
        cases hs : scan Distance item (Distance it item) fc with
        | none =>
          simp only [hs, Option.some.injEq, Prod.mk.injEq] at h
          rw [← h.1, ← hd]
          refine ⟨?_, h2, h3, ?_, h5⟩
          · intro x hx
            simp only [Node.items, List.nil_append, List.mem_cons] at hx
            rcases hx with hx | hx | hx
            · exact h1 x (by simp [hx])
            · rw [hx]; exact hd.symm
            · exact h1 x (by simp [hx])
          · refine ⟨?_, h0, ?_, trivial, h4⟩
            · intro x hx
              simp only [Node.items, List.append_nil, List.mem_singleton] at hx
              rw [hx]
            · exact (scan_none_iff Distance item fc _).1 hs
        | some r =>
          obtain ⟨fc2, added⟩ := r
          simp only [hs, Option.some.injEq, Prod.mk.injEq] at h
          rw [← h.1, ← hd]
          refine ⟨?_, h2, h3, ihc it fc2 added h4 hs, h5⟩
          intro x hx
          simp only [List.mem_cons] at hx
          rcases hx with hx | hx
          · exact h1 x (by simp [hx])
          · rcases scan_some_cases Distance item fc _ fc2 added hs with ⟨_, hc⟩ | ⟨_, hc⟩
            · rw [hc] at hx; exact h1 x (by simp [hx])
            · have hm := (Attached.items_perm hc).mem_iff.1 hx
              simp only [List.mem_cons] at hm
              rcases hm with hm | hm
              · rw [hm]; exact hd.symm
              · exact h1 x (by simp [hm])
    · simp only [hd, if_false] at h
      cases hs : scan Distance item (Distance p item) ns with
      | none => simp [hs] at h
      | some r =>
        obtain ⟨ns2, added⟩ := r
        simp only [hs, Option.some.injEq, Prod.mk.injEq] at h
        rw [← h.1]
        refine ⟨h1, h2, ?_, h4, ihn p ns2 added h5 hs⟩
        rcases scan_some_cases Distance item ns _ ns2 added hs with ⟨_, hc⟩ | ⟨_, hc⟩
        · rw [hc]; exact h3
        · rw [Attached.dists_eq hc]; exact h3

/-- Inserting a stored element changes nothing: the descent follows the
exact-distance path to the node that holds it. -/
theorem scan_of_mem (Distance : T → T → Int) (hself : ∀ x, Distance x x = 0) (item : T)
    (ch : Node T) (p : T) (hok : Node.ChildrenOK Distance p ch) (hx : item ∈ Node.items ch) :
    scan Distance item (Distance p item) ch = some (ch, false) := by
  induction ch generalizing p with
  | null => simp [Node.items] at hx
  | mk it dp fc ns ihc ihn =>
    obtain ⟨h1, h2, h3, h4, h5⟩ := hok
    simp only [Node.items, List.mem_cons, List.mem_append] at hx
    unfold scan
    by_cases hd : dp = Distance p item
    · simp only [hd, if_true]
      by_cases h0 : Distance it item = 0
      · simp [h0]
      · simp only [h0, if_false]
        rcases hx with hx | hx | hx
        · exact absurd (by rw [hx]; exact hself it) h0
        · rw [ihc it h4 hx]
        · exact absurd (hd ▸ ChildrenOK.dist_mem h5 hx) h3
    · simp only [hd, if_false]
      rcases hx with hx | hx | hx
      · exact absurd (h1 item (by simp [hx])).symm hd
      · exact absurd (h1 item (by simp [hx])).symm hd
      · rw [ihn p h5 hx]

/-- Inserting an element that is not stored creates a node whenever the scan
finds a child to descend into. -/
theorem scan_of_not_mem (Distance : T → T → Int) (hzero : ∀ x y, Distance x y = 0 → x = y)
    (item : T) (ch : Node T) (d : Int) (c2 : Node T) (b : Bool)
    (hx : item ∉ Node.items ch) (h : scan Distance item d ch = some (c2, b)) : b = true := by
  induction ch generalizing d c2 b with
  | null => simp [scan] at h
  | mk it dp fc ns ihc ihn =>
    simp only [Node.items, List.mem_cons, List.mem_append, not_or] at hx
    unfold scan at h
    by_cases hd : dp = d
    · simp only [hd, if_true] at h
      have h0 : ¬ Distance it item = 0 := fun e => hx.1 (hzero _ _ e).symm
      simp only [h0, if_false] at h
      cases hs : scan Distance item (Distance it item) fc with
      | none =>
        simp only [hs, Option.some.injEq, Prod.mk.injEq] at h
        exact h.2.symm
      | some r =>
        obtain ⟨fc2, added⟩ := r
        simp only [hs, Option.some.injEq, Prod.mk.injEq] at h
        rw [← h.2]
        exact ihc _ _ _ hx.2.1 hs
    · simp only [hd, if_false] at h
      cases hs : scan Distance item d ns with
      | none => simp [hs] at h
      | some r =>
        obtain ⟨ns2, added⟩ := r
        simp only [hs, Option.some.injEq, Prod.mk.injEq] at h
        rw [← h.2]
        exact ihn _ _ _ hx.2.2 hs

/-- The three outcomes of `insert`, for every distance function: the first
element becomes the root, or nothing changes, or exactly one leaf is attached
and `size_` grows by one. -/
theorem insert_cases (Distance : T → T → Int) (tr : BkTree T) (item : T) :
    (tr.root_ = Node.null ∧ insert Distance tr item = ⟨Node.mk item (-1) Node.null Node.null, 1⟩) ∨
    (tr.root_ ≠ Node.null ∧ insert Distance tr item = tr) ∨
    (tr.root_ ≠ Node.null ∧ Attached Distance item tr.root_ (insert Distance tr item).root_ ∧
      (insert Distance tr item).size_ = tr.size_ + 1) := by
  obtain ⟨root, sz⟩ := tr
  cases root with
  | null => exact Or.inl ⟨rfl, rfl⟩
  | mk it dp fc ns =>
    refine Or.inr ?_
    simp only [insert]
    by_cases h0 : Distance it item = 0
    · simp [h0]
    · simp only [h0, if_false]
      cases hs : scan Distance item (Distance it item) fc with
      | none =>
        exact Or.inr ⟨by simp, Attached.here it dp fc ns, rfl⟩
      | some r =>
        obtain ⟨fc2, added⟩ := r
        rcases scan_some_cases Distance item fc _ fc2 added hs with ⟨hb, hc⟩ | ⟨hb, hc⟩
        · exact Or.inl ⟨by simp, by simp [hb, hc]⟩
        · exact Or.inr ⟨by simp, Attached.child it dp fc fc2 ns hc, by simp [hb]⟩

/-- The tree invariant is kept by `insert`, for every distance function. -/
theorem insert_wellFormed (Distance : T → T → Int) (tr : BkTree T) (item : T)
    (hwf : WellFormed Distance tr) : WellFormed Distance (insert Distance tr item) := by
  obtain ⟨root, sz⟩ := tr
  cases root with
  | null => simp [insert, WellFormed, weight, Node.ChildrenOK]
  | mk it dp fc ns =>
    obtain ⟨hsz, hns, hok⟩ := hwf
    simp only at hsz hns hok
    simp only [insert]
    by_cases h0 : Distance it item = 0
    · simp only [h0, if_true]
      exact ⟨hsz, hns, hok⟩
    · simp only [h0, if_false]
      cases hs : scan Distance item (Distance it item) fc with
      | none =>
        refine ⟨?_, hns, ?_, h0, (scan_none_iff Distance item fc _).1 hs, trivial, hok⟩
        · simp only [hsz, weight]; push_cast; ring
        · intro x hx
          simp only [Node.items, List.append_nil, List.mem_singleton] at hx
          rw [hx]
      | some r =>
        obtain ⟨fc2, added⟩ := r
        refine ⟨?_, hns, scan_childrenOK Distance item fc it fc2 added hok hs⟩
        rcases scan_some_cases Distance item fc _ fc2 added hs with ⟨hb, hc⟩ | ⟨hb, hc⟩
        · simp [hb, hc, hsz]
        · simp only [hb, if_true, hsz, weight, Attached.weight_eq hc]; push_cast; ring

/-- Inserting a stored element is a no-op. -/
theorem insert_of_mem (Distance : T → T → Int) (hself : ∀ x, Distance x x = 0)
    (tr : BkTree T) (item : T) (hwf : WellFormed Distance tr) (hx : item ∈ elements tr) :
    insert Distance tr item = tr := by
  obtain ⟨root, sz⟩ := tr
  cases root with
  | null => simp [elements, Node.items] at hx
  | mk it dp fc ns =>
    obtain ⟨_, hns, hok⟩ := hwf
    simp only [elements, Node.items, hns, List.append_nil, List.mem_cons] at hx
    simp only [insert]
    by_cases h0 : Distance it item = 0
    · simp [h0]
    · simp only [h0, if_false]
      rcases hx with hx | hx
      · exact absurd (by rw [hx]; exact hself it) h0
      · rw [scan_of_mem Distance hself item fc it hok hx]
        simp

/-- Inserting an element that is not stored never leaves the tree unchanged. -/
theorem insert_ne_of_not_mem (Distance : T → T → Int)
    (hzero : ∀ x y, Distance x y = 0 → x = y) (tr : BkTree T) (item : T)
    (hx : item ∉ elements tr) (hroot : tr.root_ ≠ Node.null) :
    Attached Distance item tr.root_ (insert Distance tr item).root_ ∧
      (insert Distance tr item).size_ = tr.size_ + 1 := by
  obtain ⟨root, sz⟩ := tr
  cases root with
  | null => exact absurd rfl hroot
  | mk it dp fc ns =>
    simp only [elements, Node.items, List.mem_cons, List.mem_append, not_or] at hx
    have h0 : ¬ Distance it item = 0 := fun e => hx.1 (hzero _ _ e).symm
    simp only [insert, h0, if_false]
    cases hs : scan Distance item (Distance it item) fc with
    | none => exact ⟨Attached.here it dp fc ns, rfl⟩
    | some r =>
      obtain ⟨fc2, added⟩ := r
      have hb := scan_of_not_mem Distance hzero item fc _ fc2 added hx.2.1 hs
      rcases scan_some_cases Distance item fc _ fc2 added hs with ⟨hb2, _⟩ | ⟨_, hc⟩
      · rw [hb] at hb2; exact absurd hb2 (by decide)
      · exact ⟨Attached.child it dp fc fc2 ns hc, by simp [hb]⟩

/-- After inserting an element that is not stored the stored elements are the
old ones and the new one. -/
theorem elements_insert_of_not_mem (Distance : T → T → Int)
    (hzero : ∀ x y, Distance x y = 0 → x = y) (tr : BkTree T) (item : T)
    (hx : item ∉ elements tr) :
    (elements (insert Distance tr item)).Perm (item :: elements tr) := by
  by_cases hroot : tr.root_ = Node.null
  · obtain ⟨root, sz⟩ := tr
    simp only at hroot
    subst hroot
    simp [insert, elements, Node.items]
  · exact Attached.items_perm (insert_ne_of_not_mem Distance hzero tr item hx hroot).1

theorem insertAll_append (Distance : T → T → Int) (xs : List T) (x : T) :
    insertAll Distance (xs ++ [x]) = insert Distance (insertAll Distance xs) x := by
  simp [insertAll, List.foldl_append]

/-- Every reachable tree satisfies the invariant, for every distance function. -/
theorem insertAll_wellFormed (Distance : T → T → Int) (xs : List T) :
    WellFormed Distance (insertAll Distance xs) := by
  induction xs using List.reverseRecOn with
  | nil => simp [insertAll, new, WellFormed, weight]
  | append_singleton xs x ih =>
    rw [insertAll_append]
    exact insert_wellFormed Distance _ x ih

/-- The stored elements of a reachable tree are the inserted ones, each once. -/
theorem elements_insertAll (Distance : T → T → Int)
    (hzero : ∀ x y, Distance x y = 0 ↔ x = y) (xs : List T) :
    (elements (insertAll Distance xs)).Nodup ∧
      ∀ x, x ∈ elements (insertAll Distance xs) ↔ x ∈ xs := by
  induction xs using List.reverseRecOn with
  | nil => simp [insertAll, new, elements, Node.items]
  | append_singleton xs x ih =>
    rw [insertAll_append]
    by_cases hx : x ∈ elements (insertAll Distance xs)
    · rw [insert_of_mem Distance (fun a => (hzero a a).2 rfl) _ x
        (insertAll_wellFormed Distance xs) hx]
      refine ⟨ih.1, fun y => ?_⟩
      rw [ih.2 y, List.mem_append, List.mem_singleton]
      constructor
      · exact Or.inl
      · rintro (h | h)
        · exact h
        · rw [h]; exact (ih.2 x).1 hx
    · have hp := elements_insert_of_not_mem Distance (fun a b => (hzero a b).1) _ x hx
      refine ⟨hp.nodup_iff.2 (List.nodup_cons.2 ⟨hx, ih.1⟩), fun y => ?_⟩
      rw [hp.mem_iff, List.mem_cons, ih.2 y, List.mem_append, List.mem_singleton]
      exact or_comm

/-- The stored elements of a reachable tree are a permutation of the
pairwise-distinct inserted elements. -/
theorem elements_perm_dedup [DecidableEq T] (Distance : T → T → Int)
    (hzero : ∀ x y, Distance x y = 0 ↔ x = y) (xs : List T) :
    (elements (insertAll Distance xs)).Perm xs.dedup := by
  have h := elements_insertAll Distance hzero xs
  refine (List.perm_ext_iff_of_nodup h.1 (List.nodup_dedup xs)).2 (fun a => ?_)
  rw [h.2 a, List.mem_dedup]

/-! ## Lemmas on `getWithinDistance` -/

theorem visitedAll_append (Distance : T → T → Int) (center : T) (k : Int)
    (q1 q2 : List (Node T)) :
    visitedAll Distance center k (q1 ++ q2) =
      visitedAll Distance center k q1 ++ visitedAll Distance center k q2 := by
  induction q1 with
  | nil => rfl
  | cons t q1 ih =>
    rw [List.cons_append]
    simp only [visitedAll, ih, List.append_assoc]

/-- What the pointers pushed by the inner loop will emit. -/
theorem visitedAll_pushChildren (Distance : T → T → Int) (center : T) (k d : Int)
    (ch : Node T) (q : List (Node T)) :
    visitedAll Distance center k (pushChildren d k ch q) =
      visitedAll Distance center k q ++ reach Distance center k d ch := by
  induction ch generalizing q with
  | null => simp [pushChildren, reach]
  | mk it dp fc ns _ ihn =>
    unfold pushChildren reach
    by_cases hb : d - k ≤ dp ∧ dp ≤ d + k
    · simp only [hb, and_self, if_true]
      rw [ihn, visitedAll_append]
      simp only [visitedAll, visited, List.append_nil, List.append_assoc]
    · simp only [hb, if_false]
      rw [ihn]
      simp

/-- The queue loop terminates with `found` increased by the number of emitted
items, and the emitted items, appended to `*result`, are a permutation of the
depth-first enumeration `visitedAll`. -/
theorem bfs_spec (Distance : T → T → Int) (center : T) (k : Int) (q : List (Node T))
    (found : Int) (result : Option (List T)) :
    ∃ out : List T, out.Perm (visitedAll Distance center k q) ∧
      bfs Distance center k q found result =
        (found + (out.length : Int), result.map (fun r => r ++ out)) := by
  induction q, found, result using bfs.induct Distance center k with
  | case1 found result =>
    refine ⟨[], List.Perm.refl _, ?_⟩
    cases result <;> simp [bfs]
  | case2 q found result ih =>
    obtain ⟨out, hp, he⟩ := ih
    refine ⟨out, ?_, ?_⟩
    · simpa [visitedAll, visited] using hp
    · rw [bfs]; exact he
  | case3 it dp fc ns q found result d ih =>
    obtain ⟨out, hp, he⟩ := ih
    rw [visitedAll_pushChildren] at hp
    refine ⟨(if Distance it center ≤ k then [it] else []) ++ out, ?_, ?_⟩
    · simp only [visitedAll, visited, List.append_assoc]
      refine List.Perm.append_left _ ?_
      exact hp.trans List.perm_append_comm
    · rw [bfs]
      by_cases hk : Distance it center ≤ k
      · simp only [d, hk, dite_true, if_true] at he ⊢
        rw [he]
        cases result <;> simp <;> ring
      · simp only [d, hk, dite_false, if_false] at he ⊢
        rw [he]
        simp

/-- The pruning is complete when every element within `k` of `center` lies
in the band of every node: then what the search emits below a well-formed chain
of children of `p` is every stored element within `k` of `center`. -/
theorem reach_eq_filter (Distance : T → T → Int) (center : T) (k : Int)
    (hband : ∀ p x, Distance x center ≤ k →
      Distance p center - k ≤ Distance p x ∧ Distance p x ≤ Distance p center + k)
    (ch : Node T) (p : T) (hok : Node.ChildrenOK Distance p ch) :
    reach Distance center k (Distance p center) ch =
      (Node.items ch).filter (fun x => decide (Distance x center ≤ k)) := by
  induction ch generalizing p with
  | null => rfl
  | mk it dp fc ns ihc ihn =>
    obtain ⟨h1, _, _, h4, h5⟩ := hok
    unfold reach
    simp only [Node.items, List.filter_cons, List.filter_append]
    rw [ihn p h5, ihc it h4]
    by_cases hb : Distance p center - k ≤ dp ∧ dp ≤ Distance p center + k
    · simp only [hb, and_self, if_true]
      by_cases hk : Distance it center ≤ k <;> simp [hk]
    · have hout : ∀ x ∈ it :: Node.items fc, ¬ Distance x center ≤ k := by
        intro x hx hk
        have hbx := hband p x hk
        rw [h1 x hx] at hbx
        exact hb hbx
      have hit : ¬ Distance it center ≤ k := hout it (by simp)
      have hfc : (Node.items fc).filter (fun x => decide (Distance x center ≤ k)) = [] := by
        rw [List.filter_eq_nil_iff]
        intro x hx
        simpa using hout x (by simp [hx])
      simp only [hb, if_false, hit, decide_False, hfc, List.nil_append]
      simp

/-- The result of `getWithinDistance` on any tree, for any distance function
and `k ≥ 0`: the count is the number of emitted items and the emitted items are
a permutation of what visiting the root emits. -/
theorem getWithinDistance_visited (Distance : T → T → Int) (tr : BkTree T) (center : T)
    (k : Int) (hk : 0 ≤ k) (result : Option (List T)) :
    ∃ out : List T, out.Perm (visited Distance center k tr.root_) ∧
      getWithinDistance Distance tr center k result =
        Except.ok ((out.length : Int), result.map (fun r => r ++ out)) := by
  obtain ⟨root, sz⟩ := tr
  have hk2 : ¬ k < 0 := not_lt.2 hk
  cases root with
  | null =>
    refine ⟨[], List.Perm.refl _, ?_⟩
    cases result <;> simp [getWithinDistance, hk2]
  | mk it dp fc ns =>
    obtain ⟨out, hp, he⟩ := bfs_spec Distance center k [Node.mk it dp fc ns] 0 result
    refine ⟨out, ?_, ?_⟩
    · simpa [visitedAll] using hp
    · simp only [getWithinDistance, hk2, if_false, he, zero_add]

/-- On a well-formed tree whose pruning is complete, `getWithinDistance`
returns the number of stored elements within `k` of `center` and appends a
permutation of them. -/
theorem getWithinDistance_filter (Distance : T → T → Int) (tr : BkTree T) (center : T)
    (k : Int) (hk : 0 ≤ k)
    (hband : ∀ p x, Distance x center ≤ k →
      Distance p center - k ≤ Distance p x ∧ Distance p x ≤ Distance p center + k)
    (hwf : WellFormed Distance tr) (result : Option (List T)) :
    ∃ out : List T,
      out.Perm ((elements tr).filter (fun x => decide (Distance x center ≤ k))) ∧
      getWithinDistance Distance tr center k result =
        Except.ok ((out.length : Int), result.map (fun r => r ++ out)) := by
  obtain ⟨out, hp, he⟩ := getWithinDistance_visited Distance tr center k hk result
  refine ⟨out, ?_, he⟩
  obtain ⟨root, sz⟩ := tr
  cases root with
  | null => simpa [visited, elements, Node.items] using hp
  | mk it dp fc ns =>
    obtain ⟨_, hns, hok⟩ := hwf
    simp only [visited, reach_eq_filter Distance center k hband fc it hok] at hp
    simp only [elements, Node.items, hns, List.append_nil, List.filter_cons]
    by_cases hd : Distance it center ≤ k
    · simpa [hd] using hp
    · simpa [hd] using hp

/-- For a metric every element within `k` of `center` lies in the band of
every node (the triangle inequality, used twice, and symmetry). -/
theorem IsMetric.band {Distance : T → T → Int} (hm : IsMetric Distance) (center : T) (k : Int)
    (p x : T) (hx : Distance x center ≤ k) :
    Distance p center - k ≤ Distance p x ∧ Distance p x ≤ Distance p center + k := by
  have h1 := hm.triangle p x center
  have h2 := hm.triangle p center x
  have h3 := hm.symm center x
  constructor <;> omega

/-- For `k = 0` and a non-negative distance that is zero only on equal
arguments, the only element within `k` of `center` is `center` itself, which
lies in every band. -/
theorem band_zero (Distance : T → T → Int) (hnn : ∀ x y, 0 ≤ Distance x y)
    (hzero : ∀ x y, Distance x y = 0 ↔ x = y) (center : T)
    (p x : T) (hx : Distance x center ≤ 0) :
    Distance p center - 0 ≤ Distance p x ∧ Distance p x ≤ Distance p center + 0 := by
  have h1 : x = center := (hzero x center).1 (le_antisymm hx (hnn x center))
  rw [h1]
  constructor <;> omega

/-- In a list without repetition the elements at distance at most zero from
`c` are `c` alone, if it occurs, and none otherwise. -/
theorem filter_le_zero (Distance : T → T → Int) (hnn : ∀ x y, 0 ≤ Distance x y)
    (hzero : ∀ x y, Distance x y = 0 ↔ x = y) (c : T) (l : List T) (hl : l.Nodup) :
    (c ∈ l → l.filter (fun x => decide (Distance x c ≤ 0)) = [c]) ∧
    (c ∉ l → l.filter (fun x => decide (Distance x c ≤ 0)) = []) := by
  have hiff : ∀ x, Distance x c ≤ 0 ↔ x = c := fun x =>
    ⟨fun h => (hzero x c).1 (le_antisymm h (hnn x c)), fun h => le_of_eq ((hzero x c).2 h)⟩
  induction l with
  | nil => simp
  | cons a l ih =>
    obtain ⟨ha, hl2⟩ := List.nodup_cons.1 hl
    obtain ⟨ih1, ih2⟩ := ih hl2
    by_cases hac : a = c
    · subst hac
      have hself : Distance a a ≤ 0 := (hiff a).2 rfl
      simp [List.filter_cons, hself, ih2 ha]
    · have hna : ¬ Distance a c ≤ 0 := fun h => hac ((hiff a).1 h)
      have hca : ¬ c = a := fun h => hac h.symm
      constructor
      · intro hc
        have hc2 : c ∈ l := by
          rcases List.mem_cons.1 hc with h | h
          · exact absurd h hca
          · exact h
        simp [List.filter_cons, hna, ih1 hc2]
      · intro hc
        have hc2 : c ∉ l := fun h => hc (List.mem_cons_of_mem a h)
        simp [List.filter_cons, hna, ih2 hc2]

/-- The search widens with `k`: it emits at least as many items below a chain. -/
theorem reach_length_mono (Distance : T → T → Int) (center : T) (k1 k2 : Int) (h12 : k1 ≤ k2)
    (ch : Node T) (d : Int) :
    (reach Distance center k1 d ch).length ≤ (reach Distance center k2 d ch).length := by
  induction ch generalizing d with
  | null => simp [reach]
  | mk it dp fc ns ihc ihn =>
    unfold reach
    have hn := ihn d
    have hc := ihc (Distance it center)
    by_cases hb : d - k1 ≤ dp ∧ dp ≤ d + k1
    · have hb2 : d - k2 ≤ dp ∧ dp ≤ d + k2 := by omega
      simp only [hb, hb2, and_self, if_true, List.length_append]
      by_cases he : Distance it center ≤ k1
      · have he2 : Distance it center ≤ k2 := by omega
        simp only [he, he2, if_true, List.length_cons, List.length_nil]
        omega
      · simp only [he, if_false, List.length_nil]
        omega
    · simp only [hb, if_false, List.length_append, List.length_nil]
      omega

theorem visited_length_mono (Distance : T → T → Int) (center : T) (k1 k2 : Int) (h12 : k1 ≤ k2)
    (t : Node T) :
    (visited Distance center k1 t).length ≤ (visited Distance center k2 t).length := by
  cases t with
  | null => simp [visited]
  | mk it dp fc ns =>
    unfold visited
    have hc := reach_length_mono Distance center k1 k2 h12 fc (Distance it center)
    simp only [List.length_append]
    by_cases he : Distance it center ≤ k1
    · have he2 : Distance it center ≤ k2 := by omega
      simp only [he, he2, if_true, List.length_cons, List.length_nil]
      omega
    · simp only [he, if_false, List.length_nil]
      omega

theorem insert_root_ne_null (Distance : T → T → Int) (tr : BkTree T) (item : T) :
    (insert Distance tr item).root_ ≠ Node.null := by
  obtain ⟨root, sz⟩ := tr
  cases root with
  | null => simp [insert]
  | mk it dp fc ns =>
    simp only [insert]
    by_cases h0 : Distance it item = 0
    · simp [h0]
    · simp only [h0, if_false]
      cases hs : scan Distance item (Distance it item) fc with
      | none => simp
      | some r => simp

theorem insertAll_root_ne_null (Distance : T → T → Int) (xs : List T) (hxs : xs ≠ []) :
    (insertAll Distance xs).root_ ≠ Node.null := by
  induction xs using List.reverseRecOn with
  | nil => exact absurd rfl hxs
  | append_singleton xs x _ =>
    rw [insertAll_append]
    exact insert_root_ne_null Distance _ x

theorem absDist_isMetric : IsMetric absDist where
  nonneg := fun x y => abs_nonneg (x - y)
  symm := fun x y => abs_sub_comm x y
  eq_zero_iff := fun x y => by simp [absDist, sub_eq_zero]
  triangle := fun x y z => abs_sub_le x y z

/-- The value of `count` on a reachable tree. -/
theorem count_insertAll (Distance : T → T → Int) (hnn : ∀ x y, 0 ≤ Distance x y)
    (hzero : ∀ x y, Distance x y = 0 ↔ x = y) (xs : List T) (c : T) :
    (c ∈ xs → count Distance (insertAll Distance xs) c = Except.ok 1) ∧
    (c ∉ xs → count Distance (insertAll Distance xs) c = Except.ok 0) := by
  obtain ⟨out, hp, he⟩ := getWithinDistance_filter Distance (insertAll Distance xs) c 0
    (le_refl 0) (band_zero Distance hnn hzero c) (insertAll_wellFormed Distance xs) none
  obtain ⟨hnd, hmem⟩ := elements_insertAll Distance hzero xs
  obtain ⟨f1, f2⟩ := filter_le_zero Distance hnn hzero c _ hnd
  have hc : count Distance (insertAll Distance xs) c = Except.ok (out.length : Int) := by
    simp only [count, he]
    rfl
  constructor
  · intro hx
    rw [f1 ((hmem c).2 hx)] at hp
    rw [hc, hp.length_eq]
    rfl
  · intro hx
    rw [f2 (fun h => hx ((hmem c).1 h))] at hp
    rw [hc, hp.length_eq]
    rfl

/-! ## The claims -/

/-- With the band test in exact integers: for a metric, the elements appended
to `*result` are, as a set, the inserted elements within distance `k` of
`center`. -/
theorem getWithinDistance_exact_set (Distance : T → T → Int) (hm : IsMetric Distance)
    (xs : List T) (center : T) (k : Int) (hk : 0 ≤ k) (r : List T) :
    ∃ (n : Int) (out : List T),
      getWithinDistance Distance (insertAll Distance xs) center k (some r) =
        Except.ok (n, some (r ++ out)) ∧
      ∀ x, x ∈ out ↔ (x ∈ xs ∧ Distance x center ≤ k) := by
  obtain ⟨out, hp, he⟩ := getWithinDistance_filter Distance (insertAll Distance xs) center k hk
    (hm.band center k) (insertAll_wellFormed Distance xs) (some r)
  refine ⟨(out.length : Int), out, by simpa using he, fun x => ?_⟩
  rw [hp.mem_iff, List.mem_filter, (elements_insertAll Distance hm.eq_zero_iff xs).2 x]
  simp

/-- With the band test in exact integers: for a metric, the returned integer is
the brute-force count, and it is the number of elements appended to the
collector. -/
theorem getWithinDistance_exact_count [DecidableEq T] (Distance : T → T → Int)
    (hm : IsMetric Distance) (xs : List T) (center : T) (k : Int) (hk : 0 ≤ k)
    (result : Option (List T)) :
    ∃ out : List T,
      getWithinDistance Distance (insertAll Distance xs) center k result =
        Except.ok (((bruteForce Distance xs center k).length : Int),
          result.map (fun r => r ++ out)) ∧
      out.length = (bruteForce Distance xs center k).length := by
  obtain ⟨out, hp, he⟩ := getWithinDistance_filter Distance (insertAll Distance xs) center k hk
    (hm.band center k) (insertAll_wellFormed Distance xs) result
  have hlen : out.length = (bruteForce Distance xs center k).length := by
    rw [hp.length_eq]
    exact ((elements_perm_dedup Distance hm.eq_zero_iff xs).filter _).length_eq
  exact ⟨out, by rw [he, hlen], hlen⟩

/-- C3. For a non-negative `Distance` that is zero exactly on equal
arguments and any sequence `xs` of inserts into a new tree, `size()` is the
number of pairwise-distinct elements of `xs`; hence a permutation `ys` of `xs`
gives the same `size()`.  (Non-negativity is part of the claim; the proof does
not need it.) -/
theorem size_eq_distinct [DecidableEq T] (Distance : T → T → Int)
    (_hnn : ∀ x y, 0 ≤ Distance x y) (hzero : ∀ x y, Distance x y = 0 ↔ x = y)
    (xs ys : List T) (hperm : ys.Perm xs) :
    size (insertAll Distance xs) = (xs.dedup.length : Int) ∧
      size (insertAll Distance ys) = size (insertAll Distance xs) := by
  have key : ∀ zs : List T, size (insertAll Distance zs) = (zs.dedup.length : Int) := by
    intro zs
    have h1 := (insertAll_wellFormed Distance zs).1
    have h2 := (elements_perm_dedup Distance hzero zs).length_eq
    rw [elements, items_length] at h2
    rw [size, h1, h2]
  refine ⟨key xs, ?_⟩
  rw [key xs, key ys, (List.Perm.dedup hperm).length_eq]

theorem size_eq_distinct_witness :
    (∀ x y, 0 ≤ absDist x y) ∧ (∀ x y, absDist x y = 0 ↔ x = y) ∧
    List.Perm [3, 5, 8, 5, 3] ([5, 3, 5, 8, 3] : List Int) ∧
    size (insertAll absDist [5, 3, 5, 8, 3]) = ((([5, 3, 5, 8, 3] : List Int).dedup.length : Nat) : Int) ∧
      size (insertAll absDist [3, 5, 8, 5, 3]) = size (insertAll absDist [5, 3, 5, 8, 3]) :=
  ⟨absDist_isMetric.nonneg, absDist_isMetric.eq_zero_iff, by decide,
    size_eq_distinct absDist absDist_isMetric.nonneg absDist_isMetric.eq_zero_iff
      [5, 3, 5, 8, 3] [3, 5, 8, 5, 3] (by decide)⟩

/-- C4. For a non-negative `Distance` that is zero exactly on equal
arguments, in the state reached by the inserts `pre`, then `item`, then `mid`,
the call `insert(item)` is a no-op: the whole state (every node with its item,
`distToParent` and children, and `size_`) is unchanged, so `size()` and every
`getWithinDistance` result are unchanged; and `insert(item)` twice in a row
gives the state of a single `insert(item)`.  (Non-negativity is part of the
claim; the proof does not need it.) -/
theorem insert_duplicate_noop (Distance : T → T → Int) (_hnn : ∀ x y, 0 ≤ Distance x y)
    (hzero : ∀ x y, Distance x y = 0 ↔ x = y) (pre mid : List T) (item : T)
    (center : T) (k : Int) (result : Option (List T)) :
    insert Distance (insertAll Distance (pre ++ item :: mid)) item =
        insertAll Distance (pre ++ item :: mid) ∧
      size (insert Distance (insertAll Distance (pre ++ item :: mid)) item) =
        size (insertAll Distance (pre ++ item :: mid)) ∧
      getWithinDistance Distance (insert Distance (insertAll Distance (pre ++ item :: mid)) item)
          center k result =
        getWithinDistance Distance (insertAll Distance (pre ++ item :: mid)) center k result ∧
      insert Distance (insert Distance (insertAll Distance pre) item) item =
        insert Distance (insertAll Distance pre) item := by
  have key : ∀ zs : List T, item ∈ zs →
      insert Distance (insertAll Distance zs) item = insertAll Distance zs := by
    intro zs hz
    exact insert_of_mem Distance (fun a => (hzero a a).2 rfl) _ item
      (insertAll_wellFormed Distance zs) ((elements_insertAll Distance hzero zs).2 item |>.2 hz)
  have h1 := key (pre ++ item :: mid) (by simp)
  have h2 := key (pre ++ [item]) (by simp)
  rw [insertAll_append] at h2
  exact ⟨h1, by rw [h1], by rw [h1], h2⟩

theorem insert_duplicate_noop_witness :
    (∀ x y, 0 ≤ absDist x y) ∧ (∀ x y, absDist x y = 0 ↔ x = y) ∧
    (insert absDist (insertAll absDist ([5, 3] ++ 7 :: [8, 1])) 7 =
        insertAll absDist ([5, 3] ++ 7 :: [8, 1]) ∧
      size (insert absDist (insertAll absDist ([5, 3] ++ 7 :: [8, 1])) 7) =
        size (insertAll absDist ([5, 3] ++ 7 :: [8, 1])) ∧
      getWithinDistance absDist (insert absDist (insertAll absDist ([5, 3] ++ 7 :: [8, 1])) 7)
          6 2 none =
        getWithinDistance absDist (insertAll absDist ([5, 3] ++ 7 :: [8, 1])) 6 2 none ∧
      insert absDist (insert absDist (insertAll absDist [5, 3]) 7) 7 =
        insert absDist (insertAll absDist [5, 3]) 7) :=
  ⟨absDist_isMetric.nonneg, absDist_isMetric.eq_zero_iff,
    insert_duplicate_noop absDist absDist_isMetric.nonneg absDist_isMetric.eq_zero_iff
      [5, 3] [8, 1] 7 6 2 none⟩

/-- C5. For a non-negative `Distance` that is zero exactly on equal
arguments, a non-empty reachable state (the inserts `xs`, `xs ≠ []`) and an
`item` that is not among the inserted elements, `insert(item)` attaches exactly
one new node: a leaf holding `item`, first child of some node `t`, with
`distToParent = Distance(t.item, item)`; every other node keeps its item, its
`distToParent`, its children and its siblings (relation `Attached`); the number
of nodes and `size_` both grow by exactly one.  (Non-negativity is part of the
claim; the proof does not need it.) -/
theorem insert_fresh_attaches_leaf (Distance : T → T → Int) (_hnn : ∀ x y, 0 ≤ Distance x y)
    (hzero : ∀ x y, Distance x y = 0 ↔ x = y) (xs : List T) (hxs : xs ≠ []) (item : T)
    (hitem : item ∉ xs) :
    Attached Distance item (insertAll Distance xs).root_
        (insert Distance (insertAll Distance xs) item).root_ ∧
      weight (insert Distance (insertAll Distance xs) item).root_ =
        weight (insertAll Distance xs).root_ + 1 ∧
      (insert Distance (insertAll Distance xs) item).size_ = (insertAll Distance xs).size_ + 1 := by
  have hx : item ∉ elements (insertAll Distance xs) := fun h =>
    hitem (((elements_insertAll Distance hzero xs).2 item).1 h)
  obtain ⟨ha, hs⟩ := insert_ne_of_not_mem Distance (fun a b => (hzero a b).1) _ item hx
    (insertAll_root_ne_null Distance xs hxs)
  exact ⟨ha, Attached.weight_eq ha, hs⟩

theorem insert_fresh_attaches_leaf_witness :
    (∀ x y, 0 ≤ absDist x y) ∧ (∀ x y, absDist x y = 0 ↔ x = y) ∧
    ([5, 3, 7] : List Int) ≠ [] ∧ (8 : Int) ∉ ([5, 3, 7] : List Int) ∧
    (Attached absDist 8 (insertAll absDist [5, 3, 7]).root_
        (insert absDist (insertAll absDist [5, 3, 7]) 8).root_ ∧
      weight (insert absDist (insertAll absDist [5, 3, 7]) 8).root_ =
        weight (insertAll absDist [5, 3, 7]).root_ + 1 ∧
      (insert absDist (insertAll absDist [5, 3, 7]) 8).size_ =
        (insertAll absDist [5, 3, 7]).size_ + 1) :=
  ⟨absDist_isMetric.nonneg, absDist_isMetric.eq_zero_iff, by decide, by decide,
    insert_fresh_attaches_leaf absDist absDist_isMetric.nonneg absDist_isMetric.eq_zero_iff
      [5, 3, 7] (by decide) 8 (by decide)⟩

/-- C6. For a non-negative `Distance` that is zero exactly on equal
arguments (neither symmetry nor the triangle inequality is assumed), after the
inserts `pre`, then `e`, then any further inserts `post`, `count(e)` returns 1:
in the state right after `e` was inserted (`post = []`) and in every later
state. -/
theorem count_inserted_eq_one (Distance : T → T → Int) (hnn : ∀ x y, 0 ≤ Distance x y)
    (hzero : ∀ x y, Distance x y = 0 ↔ x = y) (pre post : List T) (e : T) :
    count Distance (insertAll Distance (pre ++ e :: post)) e = Except.ok 1 :=
  (count_insertAll Distance hnn hzero (pre ++ e :: post) e).1 (by simp)

theorem count_inserted_eq_one_witness :
    (∀ x y, 0 ≤ absDist x y) ∧ (∀ x y, absDist x y = 0 ↔ x = y) ∧
    count absDist (insertAll absDist ([5, 3] ++ 7 :: [8, 1])) 7 = Except.ok 1 :=
  ⟨absDist_isMetric.nonneg, absDist_isMetric.eq_zero_iff,
    count_inserted_eq_one absDist absDist_isMetric.nonneg absDist_isMetric.eq_zero_iff
      [5, 3] [8, 1] 7⟩

/-- C7. For a non-negative `Distance` that is zero exactly on equal
arguments, in every reachable state `count(item)` returns 0 or 1, and it
returns 0 when `item` is not among the inserted elements. -/
theorem count_zero_or_one (Distance : T → T → Int) (hnn : ∀ x y, 0 ≤ Distance x y)
    (hzero : ∀ x y, Distance x y = 0 ↔ x = y) (xs : List T) (item : T) :
    (count Distance (insertAll Distance xs) item = Except.ok 0 ∨
        count Distance (insertAll Distance xs) item = Except.ok 1) ∧
      (item ∉ xs → count Distance (insertAll Distance xs) item = Except.ok 0) := by
  obtain ⟨h1, h0⟩ := count_insertAll Distance hnn hzero xs item
  refine ⟨?_, h0⟩
  by_cases hx : item ∈ xs
  · exact Or.inr (h1 hx)
  · exact Or.inl (h0 hx)

theorem count_zero_or_one_witness :
    (∀ x y, 0 ≤ absDist x y) ∧ (∀ x y, absDist x y = 0 ↔ x = y) ∧
    ((count absDist (insertAll absDist [5, 3, 7]) 4 = Except.ok 0 ∨
        count absDist (insertAll absDist [5, 3, 7]) 4 = Except.ok 1) ∧
      ((4 : Int) ∉ ([5, 3, 7] : List Int) →
        count absDist (insertAll absDist [5, 3, 7]) 4 = Except.ok 0)) :=
  ⟨absDist_isMetric.nonneg, absDist_isMetric.eq_zero_iff,
    count_zero_or_one absDist absDist_isMetric.nonneg absDist_isMetric.eq_zero_iff [5, 3, 7] 4⟩

/-- With the band test in exact integers: for every distance function the
count for `k1` is at most the count for `k2` when `0 ≤ k1 ≤ k2`. -/
theorem getWithinDistance_exact_mono (Distance : T → T → Int) (xs : List T) (center : T)
    (k1 k2 : Int) (h1 : 0 ≤ k1) (h12 : k1 ≤ k2) (result : Option (List T)) :
    ∃ (n1 n2 : Int) (r1 r2 : Option (List T)),
      getWithinDistance Distance (insertAll Distance xs) center k1 result = Except.ok (n1, r1) ∧
      getWithinDistance Distance (insertAll Distance xs) center k2 result = Except.ok (n2, r2) ∧
      n1 ≤ n2 := by
  obtain ⟨o1, hp1, he1⟩ :=
    getWithinDistance_visited Distance (insertAll Distance xs) center k1 h1 result
  obtain ⟨o2, hp2, he2⟩ :=
    getWithinDistance_visited Distance (insertAll Distance xs) center k2 (le_trans h1 h12) result
  refine ⟨_, _, _, _, he1, he2, ?_⟩
  rw [hp1.length_eq, hp2.length_eq]
  exact_mod_cast visited_length_mono Distance center k1 k2 h12 _

/-- C9. In every state (the empty tree included), `getWithinDistance(center, k)`
fails with the assertion `k >= 0` if and only if `k < 0`, the failure carrying
no count and no collector; and it returns normally if and only if `k ≥ 0`. -/
theorem getWithinDistance_fails_iff (Distance : T → T → Int) (tr : BkTree T) (center : T)
    (k : Int) (result : Option (List T)) :
    (getWithinDistance Distance tr center k result = Except.error Failure.assertion ↔ k < 0) ∧
      ((∃ v, getWithinDistance Distance tr center k result = Except.ok v) ↔ 0 ≤ k) := by
  obtain ⟨root, sz⟩ := tr
  by_cases hk : k < 0
  · have hk2 : ¬ 0 ≤ k := not_le.2 hk
    simp [getWithinDistance, hk, hk2]
  · have hk2 : 0 ≤ k := not_lt.1 hk
    cases root <;> simp [getWithinDistance, hk, hk2]

/-- C10. On a newly constructed tree `size()` is 0, `empty()` is true, and for
every `center`, every `k ≥ 0` and every collector, `getWithinDistance(center, k)`
returns 0 and leaves the collector as it was. -/
theorem new_tree_is_empty (Distance : T → T → Int) (center : T) (k : Int) (hk : 0 ≤ k)
    (result : Option (List T)) :
    size (new : BkTree T) = 0 ∧ empty (new : BkTree T) = true ∧
      getWithinDistance Distance new center k result = Except.ok (0, result) := by
  have hk2 : ¬ k < 0 := not_lt.2 hk
  simp [size, empty, new, getWithinDistance, hk2]

theorem new_tree_is_empty_witness :
    (0 : Int) ≤ 2 ∧
    size (new : BkTree Int) = 0 ∧ empty (new : BkTree Int) = true ∧
      getWithinDistance absDist new 6 2 (some [4]) = Except.ok (0, some [4]) :=
  ⟨by decide, new_tree_is_empty absDist 6 2 (by decide) (some [4])⟩

end BkTree

/-! ## Invariants of reachable trees -/

namespace BkTree

variable {T : Type}

/-- Every node below a well-formed chain of children has a well-formed chain
of children itself. -/
theorem ChildrenOK.of_mem_nodes {Distance : T → T → Int} {p : T} {ch : Node T}
    (hok : Node.ChildrenOK Distance p ch) {it : T} {dp : Int} {fc ns : Node T}
    (ht : Node.mk it dp fc ns ∈ Node.nodes ch) : Node.ChildrenOK Distance it fc := by
  induction ch generalizing p with
  | null => simp [Node.nodes] at ht
  | mk it2 dp2 fc2 ns2 ihc ihn =>
    obtain ⟨_, _, _, h4, h5⟩ := hok
    simp only [Node.nodes, List.mem_cons, List.mem_append] at ht
    rcases ht with ht | ht | ht
    · injection ht with e1 e2 e3 e4
      rw [e1, e3]
      exact h4
    · exact ihc h4 ht
    · exact ihn h5 ht

/-- In a reachable tree every node has a well-formed chain of children, for
every distance function. -/
theorem insertAll_childrenOK (Distance : T → T → Int) (xs : List T) {it : T} {dp : Int}
    {fc ns : Node T} (ht : Node.mk it dp fc ns ∈ Node.nodes (insertAll Distance xs).root_) :
    Node.ChildrenOK Distance it fc := by
  have hwf := insertAll_wellFormed Distance xs
  generalize insertAll Distance xs = tr at ht hwf
  obtain ⟨root, sz⟩ := tr
  cases root with
  | null => simp [Node.nodes] at ht
  | mk it2 dp2 fc2 ns2 =>
    obtain ⟨_, hns, hok⟩ := hwf
    simp only [Node.nodes, hns, List.append_nil, List.mem_cons] at ht
    rcases ht with ht | ht
    · injection ht with e1 e2 e3 e4
      rw [e1, e3]
      exact hok
    · exact ChildrenOK.of_mem_nodes hok ht

/-- The facts that a well-formed chain of children gives about one of its
members. -/
theorem ChildrenOK.of_mem_chain {Distance : T → T → Int} {p : T} {ch : Node T}
    (hok : Node.ChildrenOK Distance p ch) {it : T} {dp : Int} {fc ns : Node T}
    (ht : Node.mk it dp fc ns ∈ Node.chain ch) :
    (∀ x ∈ it :: Node.items fc, Distance p x = dp) ∧ dp ≠ 0 := by
  induction ch with
  | null => simp [Node.chain] at ht
  | mk it2 dp2 fc2 ns2 _ ihn =>
    obtain ⟨h1, h2, _, _, h5⟩ := hok
    simp only [Node.chain, List.mem_cons] at ht
    rcases ht with ht | ht
    · injection ht with e1 e2 e3 e4
      rw [e1, e2, e3]
      exact ⟨h1, h2⟩
    · exact ihn h5 ht

/-- Siblings of a well-formed chain have pairwise different `distToParent`. -/
theorem ChildrenOK.dists_nodup {Distance : T → T → Int} {p : T} {ch : Node T}
    (hok : Node.ChildrenOK Distance p ch) : (Node.dists ch).Nodup := by
  induction ch with
  | null => simp [Node.dists]
  | mk it2 dp2 fc2 ns2 _ ihn =>
    obtain ⟨_, _, h3, _, h5⟩ := hok
    simp only [Node.dists, List.nodup_cons]
    exact ⟨h3, ihn h5⟩

/-- C11. In every state reachable from construction by `insert` calls, for
every distance function, `size_` is the number of nodes reachable from `root_`
(0 for a null root); `empty()` is true exactly when there is no root; and after
a first insert `y`, `empty()` is false whatever inserts `ys` follow. -/
theorem size_eq_node_count (Distance : T → T → Int) (xs : List T) (y : T) (ys : List T) :
    (insertAll Distance xs).size_ = (weight (insertAll Distance xs).root_ : Int) ∧
      (empty (insertAll Distance xs) = true ↔ (insertAll Distance xs).root_ = Node.null) ∧
      empty (insertAll Distance (y :: ys)) = false := by
  have key : ∀ zs : List T,
      (empty (insertAll Distance zs) = true ↔ (insertAll Distance zs).root_ = Node.null) := by
    intro zs
    have hsz := (insertAll_wellFormed Distance zs).1
    generalize insertAll Distance zs = tr at hsz
    obtain ⟨root, sz⟩ := tr
    simp only at hsz
    cases root with
    | null => simp [empty, hsz, weight]
    | mk it dp fc ns =>
      simp only [empty, hsz, weight, decide_eq_true_eq]
      constructor
      · intro h; omega
      · intro h; exact absurd h (by simp)
  refine ⟨(insertAll_wellFormed Distance xs).1, key xs, ?_⟩
  have hne := insertAll_root_ne_null Distance (y :: ys) (by simp)
  cases he : empty (insertAll Distance (y :: ys)) with
  | false => rfl
  | true => exact absurd ((key (y :: ys)).1 he) hne

end BkTree

namespace BkTree

variable {T : Type}

/-- What the search emits below a chain is a sublist of the stored items within
`k` of `center`: nothing else is emitted and no node is emitted twice. -/
theorem reach_sublist_filter (Distance : T → T → Int) (center : T) (k : Int) (ch : Node T)
    (d : Int) :
    (reach Distance center k d ch).Sublist
      ((Node.items ch).filter (fun x => decide (Distance x center ≤ k))) := by
  induction ch generalizing d with
  | null => simp [reach, Node.items]
  | mk it dp fc ns ihc ihn =>
    unfold reach
    simp only [Node.items, List.filter_cons, List.filter_append]
    have hn := ihn d
    have hc := ihc (Distance it center)
    by_cases hb : d - k ≤ dp ∧ dp ≤ d + k
    · simp only [hb, and_self, if_true]
      by_cases he : Distance it center ≤ k
      · simp only [he, if_true, decide_True, List.cons_append, List.nil_append]
        exact List.Sublist.cons₂ it (List.Sublist.append hc hn)
      · simp only [he, if_false, decide_False, List.nil_append]
        exact List.Sublist.append hc hn
    · simp only [hb, if_false, List.nil_append]
      have h2 : (reach Distance center k d ns).Sublist
          (List.filter (fun x => decide (Distance x center ≤ k)) (Node.items fc) ++
            List.filter (fun x => decide (Distance x center ≤ k)) (Node.items ns)) :=
        List.Sublist.trans hn (List.sublist_append_right _ _)
      by_cases he : Distance it center ≤ k
      · simp only [he, decide_True, if_true]
        exact List.Sublist.cons it h2
      · simp only [he, decide_False]
        exact h2

theorem visited_sublist_filter (Distance : T → T → Int) (center : T) (k : Int) (t : Node T) :
    (visited Distance center k t).Sublist
      ((Node.items t).filter (fun x => decide (Distance x center ≤ k))) := by
  cases t with
  | null => simp [visited, Node.items]
  | mk it dp fc ns =>
    unfold visited
    simp only [Node.items, List.filter_cons, List.filter_append]
    have hc : (reach Distance center k (Distance it center) fc).Sublist
          (List.filter (fun x => decide (Distance x center ≤ k)) (Node.items fc) ++
            List.filter (fun x => decide (Distance x center ≤ k)) (Node.items ns)) :=
      List.Sublist.trans (reach_sublist_filter Distance center k fc (Distance it center))
        (List.sublist_append_left _ _)
    by_cases he : Distance it center ≤ k
    · simp only [he, if_true, decide_True, List.cons_append, List.nil_append]
      exact List.Sublist.cons₂ it hc
    · simp only [he, if_false, decide_False, List.nil_append]
      exact hc

/-- C13. Exact-distance partition invariant: in every reachable state, for
every distance function, for every node `t = (it, dp, fc, ns)` of the tree and
every child `ch = (it2, dp2, fc2, ns2)` of `t` (a member of the sibling chain
`fc`), every element `x` stored in the subtree rooted at `ch` (`ch` included)
has `Distance(t.item, x) == ch.distToParent`. -/
theorem exact_distance_partition (Distance : T → T → Int) (xs : List T)
    (it : T) (dp : Int) (fc ns : Node T)
    (ht : Node.mk it dp fc ns ∈ Node.nodes (insertAll Distance xs).root_)
    (it2 : T) (dp2 : Int) (fc2 ns2 : Node T) (hch : Node.mk it2 dp2 fc2 ns2 ∈ Node.chain fc)
    (x : T) (hx : x ∈ it2 :: Node.items fc2) :
    Distance it x = dp2 :=
  (ChildrenOK.of_mem_chain (insertAll_childrenOK Distance xs ht) hch).1 x hx

theorem exact_distance_partition_witness :
    Node.mk 5 (-1) (Node.mk 3 2 (Node.mk 7 4 Node.null Node.null) Node.null) Node.null ∈
        Node.nodes (insertAll absDist [5, 3, 7]).root_ ∧
      Node.mk 3 2 (Node.mk 7 4 Node.null Node.null) Node.null ∈
        Node.chain (Node.mk 3 2 (Node.mk (7 : Int) 4 Node.null Node.null) Node.null) ∧
      (7 : Int) ∈ 3 :: Node.items (Node.mk (7 : Int) 4 Node.null Node.null) ∧
      absDist 5 7 = 2 :=
  ⟨by simp [insertAll, BkTree.insert, scan, new, absDist, Node.nodes],
    by simp [Node.chain], by simp [Node.items],
    exact_distance_partition absDist [5, 3, 7] 5 (-1)
      (Node.mk 3 2 (Node.mk 7 4 Node.null Node.null) Node.null) Node.null
      (by simp [insertAll, BkTree.insert, scan, new, absDist, Node.nodes])
      3 2 (Node.mk 7 4 Node.null Node.null) Node.null (by simp [Node.chain])
      7 (by simp [Node.items])⟩

/-- C14. Sibling-distinctness invariant: in every reachable state, for every
distance function, for every node `t = (it, dp, fc, ns)` of the tree the
`distToParent` values along its chain of children are pairwise different, and
every child (that is, every non-root node) has `distToParent != 0`. -/
theorem sibling_dists_distinct (Distance : T → T → Int) (xs : List T)
    (it : T) (dp : Int) (fc ns : Node T)
    (ht : Node.mk it dp fc ns ∈ Node.nodes (insertAll Distance xs).root_) :
    (Node.dists fc).Nodup ∧
      ∀ (it2 : T) (dp2 : Int) (fc2 ns2 : Node T),
        Node.mk it2 dp2 fc2 ns2 ∈ Node.chain fc → dp2 ≠ 0 :=
  ⟨ChildrenOK.dists_nodup (insertAll_childrenOK Distance xs ht),
    fun _ _ _ _ hch => (ChildrenOK.of_mem_chain (insertAll_childrenOK Distance xs ht) hch).2⟩

theorem sibling_dists_distinct_witness :
    Node.mk 5 (-1) (Node.mk 8 3 Node.null (Node.mk 3 2 Node.null Node.null)) Node.null ∈
        Node.nodes (insertAll absDist [5, 3, 8]).root_ ∧
      ((Node.dists (Node.mk (8 : Int) 3 Node.null (Node.mk 3 2 Node.null Node.null))).Nodup ∧
        ∀ (it2 : Int) (dp2 : Int) (fc2 ns2 : Node Int),
          Node.mk it2 dp2 fc2 ns2 ∈
            Node.chain (Node.mk (8 : Int) 3 Node.null (Node.mk 3 2 Node.null Node.null)) →
          dp2 ≠ 0) :=
  ⟨by simp [insertAll, BkTree.insert, scan, new, absDist, Node.nodes],
    sibling_dists_distinct absDist [5, 3, 8] 5 (-1)
      (Node.mk 8 3 Node.null (Node.mk 3 2 Node.null Node.null)) Node.null
      (by simp [insertAll, BkTree.insert, scan, new, absDist, Node.nodes])⟩

/-- C15. Pruning soundness: for a metric, in every reachable state, for every
`center`, every `k ≥ 0`, every node `t = (it, dp, fc, ns)` with
`d = Distance(t.item, center)` and every child `ch = (it2, dp2, fc2, ns2)` of
`t` whose `distToParent` is outside the band `[d - k, d + k]`, every element `x`
stored in the subtree rooted at `ch` is farther than `k` from `center`. -/
theorem pruning_sound (Distance : T → T → Int) (hm : IsMetric Distance) (xs : List T)
    (center : T) (k : Int) (_hk : 0 ≤ k)
    (it : T) (dp : Int) (fc ns : Node T)
    (ht : Node.mk it dp fc ns ∈ Node.nodes (insertAll Distance xs).root_)
    (it2 : T) (dp2 : Int) (fc2 ns2 : Node T) (hch : Node.mk it2 dp2 fc2 ns2 ∈ Node.chain fc)
    (hout : ¬ (Distance it center - k ≤ dp2 ∧ dp2 ≤ Distance it center + k))
    (x : T) (hx : x ∈ it2 :: Node.items fc2) :
    k < Distance x center := by
  by_contra hlt
  have hb := hm.band center k it x (not_lt.1 hlt)
  rw [(ChildrenOK.of_mem_chain (insertAll_childrenOK Distance xs ht) hch).1 x hx] at hb
  exact hout hb

theorem pruning_sound_witness :
    IsMetric absDist ∧ (0 : Int) ≤ 1 ∧
      Node.mk 5 (-1) (Node.mk 3 2 (Node.mk 7 4 Node.null Node.null) Node.null) Node.null ∈
        Node.nodes (insertAll absDist [5, 3, 7]).root_ ∧
      Node.mk 3 2 (Node.mk 7 4 Node.null Node.null) Node.null ∈
        Node.chain (Node.mk 3 2 (Node.mk (7 : Int) 4 Node.null Node.null) Node.null) ∧
      ¬ (absDist 5 9 - 1 ≤ 2 ∧ 2 ≤ absDist 5 9 + 1) ∧
      (7 : Int) ∈ 3 :: Node.items (Node.mk (7 : Int) 4 Node.null Node.null) ∧
      1 < absDist 7 9 :=
  ⟨absDist_isMetric, by decide,
    by simp [insertAll, BkTree.insert, scan, new, absDist, Node.nodes],
    by simp [Node.chain], by simp [absDist], by simp [Node.items],
    pruning_sound absDist absDist_isMetric [5, 3, 7] 9 1 (by decide) 5 (-1)
      (Node.mk 3 2 (Node.mk 7 4 Node.null Node.null) Node.null) Node.null
      (by simp [insertAll, BkTree.insert, scan, new, absDist, Node.nodes])
      3 2 (Node.mk 7 4 Node.null Node.null) Node.null (by simp [Node.chain])
      (by simp [absDist]) 7 (by simp [Node.items])⟩

/-- C20. No false positives, for every distance function: in every reachable
state, for every `center`, `k ≥ 0` and collector, `getWithinDistance` returns
the number of items `out` it appends; `out` is, up to order, a sublist of the
items of the tree nodes within `k` of `center` (so each node contributes at
most once); hence every appended element is the item of a node with
`Distance(item, center) ≤ k`, and the count is at most the number of such
nodes. -/
theorem no_false_positives (Distance : T → T → Int) (xs : List T) (center : T) (k : Int)
    (hk : 0 ≤ k) (result : Option (List T)) :
    ∃ out : List T,
      getWithinDistance Distance (insertAll Distance xs) center k result =
        Except.ok ((out.length : Int), result.map (fun r => r ++ out)) ∧
      out.Subperm ((elements (insertAll Distance xs)).filter
        (fun x => decide (Distance x center ≤ k))) ∧
      (∀ x ∈ out, x ∈ elements (insertAll Distance xs) ∧ Distance x center ≤ k) ∧
      out.length ≤ ((elements (insertAll Distance xs)).filter
        (fun x => decide (Distance x center ≤ k))).length := by
  obtain ⟨out, hp, he⟩ :=
    getWithinDistance_visited Distance (insertAll Distance xs) center k hk result
  have hsub : out.Subperm ((elements (insertAll Distance xs)).filter
      (fun x => decide (Distance x center ≤ k))) :=
    ⟨_, hp.symm, visited_sublist_filter Distance center k _⟩
  refine ⟨out, he, hsub, fun x hx => ?_, hsub.length_le⟩
  have hmem := hsub.subset hx
  simpa [List.mem_filter] using hmem

theorem no_false_positives_witness :
    (0 : Int) ≤ 2 ∧
    ∃ out : List Int,
      getWithinDistance absDist (insertAll absDist [5, 3, 7, 8]) 6 2 (some [0]) =
        Except.ok ((out.length : Int), (some [0]).map (fun r => r ++ out)) ∧
      out.Subperm ((elements (insertAll absDist [5, 3, 7, 8])).filter
        (fun x => decide (absDist x 6 ≤ 2))) ∧
      (∀ x ∈ out, x ∈ elements (insertAll absDist [5, 3, 7, 8]) ∧ absDist x 6 ≤ 2) ∧
      out.length ≤ ((elements (insertAll absDist [5, 3, 7, 8])).filter
        (fun x => decide (absDist x 6 ≤ 2))).length :=
  ⟨by decide, no_false_positives absDist [5, 3, 7, 8] 6 2 (by decide) (some [0])⟩

end BkTree

namespace BkTree

/-- C16. A distance function that violates the triangle inequality makes the
index miss matches without failing: `brokenDist` is non-negative, symmetric,
zero exactly on equal arguments and violates the triangle inequality, and after
inserting the points 0 and 1 the query `getWithinDistance(2, 1)` returns
normally with the count 1, while both inserted points are within distance 1
of the point 2. -/
theorem triangle_violation_misses_match :
    ∃ (Distance : Fin 3 → Fin 3 → Int) (xs : List (Fin 3)) (center : Fin 3) (k : Int),
      (∀ x y, 0 ≤ Distance x y) ∧ (∀ x y, Distance x y = Distance y x) ∧
      (∀ x y, Distance x y = 0 ↔ x = y) ∧
      (∃ x y z, Distance x y + Distance y z < Distance x z) ∧ 0 ≤ k ∧
      ∃ (n : Int) (r : Option (List (Fin 3))),
        getWithinDistance Distance (insertAll Distance xs) center k none = Except.ok (n, r) ∧
        n < ((bruteForce Distance xs center k).length : Int) := by
  refine ⟨brokenDist, [0, 1], 2, 1, by decide, by decide, by decide, ⟨0, 2, 1, by decide⟩,
    by decide, 1, none, ?_, by decide⟩
  simp [getWithinDistance, insertAll, BkTree.insert, scan, new, bfs, pushChildren, brokenDist]

end BkTree

/-! ## The 32-bit band test -/

namespace BkTree

variable {T : Type}

theorem wrap32_of_range (x : Int) (h1 : -2147483648 ≤ x) (h2 : x ≤ 2147483647) :
    wrap32 x = x := by
  unfold wrap32
  omega

theorem pushChildren32_eq (d k : Int) (hlo : wrap32 (d - k) = d - k)
    (hhi : wrap32 (d + k) = d + k) (ch : Node T) (q : List (Node T)) :
    pushChildren32 d k ch q = pushChildren d k ch q := by
  induction ch generalizing q with
  | null => rfl
  | mk it dp fc ns _ ihn =>
    simp only [pushChildren32, pushChildren, hlo, hhi, ihn]

theorem mem_pushChildren (d k : Int) (ch : Node T) (q : List (Node T)) (t : Node T)
    (ht : t ∈ pushChildren d k ch q) : t ∈ q ∨ t ∈ Node.chain ch := by
  induction ch generalizing q with
  | null => exact Or.inl (by simpa [pushChildren] using ht)
  | mk it dp fc ns _ ihn =>
    unfold pushChildren at ht
    simp only [Node.chain, List.mem_cons]
    by_cases hb : d - k ≤ dp ∧ dp ≤ d + k
    · simp only [hb, and_self, if_true] at ht
      rcases ihn _ ht with h | h
      · simp only [List.mem_append, List.mem_singleton] at h
        rcases h with h | h
        · exact Or.inl h
        · exact Or.inr (Or.inl h)
      · exact Or.inr (Or.inr h)
    · simp only [hb, if_false] at ht
      rcases ihn _ ht with h | h
      · exact Or.inl h
      · exact Or.inr (Or.inr h)

theorem items_of_mem_chain (ch t : Node T) (ht : t ∈ Node.chain ch) (x : T)
    (hx : x ∈ Node.items t) : x ∈ Node.items ch := by
  induction ch with
  | null => simp [Node.chain] at ht
  | mk it dp fc ns _ ihn =>
    simp only [Node.chain, List.mem_cons] at ht
    rcases ht with ht | ht
    · rw [ht] at hx; exact hx
    · simp only [Node.items, List.mem_cons, List.mem_append]
      exact Or.inr (Or.inr (ihn ht))

/-- The 32-bit queue loop computes what the exact one computes when `d - k`
and `d + k` stay in the `int` range for every item at or below a queued
pointer. -/
theorem bfs32_eq_bfs (Distance : T → T → Int) (center : T) (k : Int)
    (hk0 : 0 ≤ k) (hk1 : k ≤ 2147483647) (q : List (Node T)) (found : Int)
    (result : Option (List T))
    (hq : ∀ t ∈ q, ∀ x ∈ Node.items t,
      0 ≤ Distance x center ∧ Distance x center + k ≤ 2147483647) :
    bfs32 Distance center k q found result = bfs Distance center k q found result := by
  induction q, found, result using bfs.induct Distance center k with
  | case1 found result => simp [bfs32, bfs]
  | case2 q found result ih =>
    rw [bfs32, bfs]
    exact ih (fun t ht => hq t (List.mem_cons_of_mem _ ht))
  | case3 it dp fc ns q found result d ih =>
    have hit := hq (Node.mk it dp fc ns) (by simp) it (by simp [Node.items])
    have hlo : wrap32 (Distance it center - k) = Distance it center - k :=
      wrap32_of_range _ (by omega) (by omega)
    have hhi : wrap32 (Distance it center + k) = Distance it center + k :=
      wrap32_of_range _ (by omega) (by omega)
    rw [bfs32, bfs]
    simp only [pushChildren32_eq _ _ hlo hhi]
    by_cases hd : Distance it center ≤ k
    · simp only [d, hd, dite_true, if_true] at ih ⊢
      refine ih (fun t ht x hx => ?_)
      rcases mem_pushChildren _ _ _ _ _ ht with h | h
      · exact hq t (List.mem_cons_of_mem _ h) x hx
      · exact hq (Node.mk it dp fc ns) (by simp) x
          (by simp [Node.items, items_of_mem_chain fc t h x hx])
    · simp only [d, hd, dite_false, if_false] at ih ⊢
      refine ih (fun t ht x hx => ?_)
      rcases mem_pushChildren _ _ _ _ _ ht with h | h
      · exact hq t (List.mem_cons_of_mem _ h) x hx
      · exact hq (Node.mk it dp fc ns) (by simp) x
          (by simp [Node.items, items_of_mem_chain fc t h x hx])

theorem discreteDist_isMetric : IsMetric discreteDist where
  nonneg := by decide
  symm := by decide
  eq_zero_iff := by decide
  triangle := by decide

/-- C17, as stated, fails: with the discrete metric on two points (values 0
and 1), the inserts `false, true`, `center = true` and `k = 2^31 - 1`, the sum
`d + k` at the root is `2^31`, which wraps to `-2^31`; the 32-bit band test
rejects the child with `distToParent = 1` that the exact test accepts, and the
32-bit `getWithinDistance` returns 1 while the brute-force count is 2. -/
theorem band32_overflow_counterexample :
    IsMetric discreteDist ∧
      (∀ x y, 0 ≤ discreteDist x y ∧ discreteDist x y ≤ 2147483647) ∧
      (0 : Int) ≤ 2147483647 ∧ (2147483647 : Int) ≤ 2147483647 ∧
      (discreteDist false true - 2147483647 ≤ 1 ∧ 1 ≤ discreteDist false true + 2147483647) ∧
      ¬ (wrap32 (discreteDist false true - 2147483647) ≤ 1 ∧
          1 ≤ wrap32 (discreteDist false true + 2147483647)) ∧
      getWithinDistance32 discreteDist (insertAll discreteDist [false, true]) true 2147483647
          none = Except.ok (1, none) ∧
      (bruteForce discreteDist [false, true] true 2147483647).length = 2 := by
  refine ⟨discreteDist_isMetric, by decide, by decide, by decide, by decide, by decide, ?_,
    by decide⟩
  simp [getWithinDistance32, insertAll, BkTree.insert, scan, new, bfs32, pushChildren32,
    discreteDist, wrap32]

/-- C17, amended. With `d - k` and `d + k` computed in 32-bit two's
complement, for every metric with values in `[0, 2^31 - 1]`, every reachable
state, every `center` and every `k` with `0 ≤ k ≤ 2^31 - 1` such that
`Distance(x, center) + k ≤ 2^31 - 1` for every inserted element `x`: at every
stored item `it` the 32-bit band test agrees with the exact one for every
`distToParent`, and `getWithinDistance` returns the brute-force count. -/
theorem band32_agrees_without_overflow [DecidableEq T] (Distance : T → T → Int)
    (hm : IsMetric Distance) (_hrange : ∀ x y, Distance x y ≤ 2147483647)
    (xs : List T) (center : T) (k : Int) (hk0 : 0 ≤ k) (hk1 : k ≤ 2147483647)
    (hsum : ∀ x ∈ xs, Distance x center + k ≤ 2147483647) (result : Option (List T)) :
    (∀ it ∈ elements (insertAll Distance xs), ∀ dp : Int,
      (wrap32 (Distance it center - k) ≤ dp ∧ dp ≤ wrap32 (Distance it center + k)) ↔
        (Distance it center - k ≤ dp ∧ dp ≤ Distance it center + k)) ∧
    ∃ out : List T,
      getWithinDistance32 Distance (insertAll Distance xs) center k result =
        Except.ok (((bruteForce Distance xs center k).length : Int),
          result.map (fun r => r ++ out)) ∧
      out.length = (bruteForce Distance xs center k).length := by
  have hmem := (elements_insertAll Distance hm.eq_zero_iff xs).2
  have hbound : ∀ x ∈ elements (insertAll Distance xs),
      0 ≤ Distance x center ∧ Distance x center + k ≤ 2147483647 :=
    fun x hx => ⟨hm.nonneg x center, hsum x ((hmem x).1 hx)⟩
  constructor
  · intro it hit dp
    obtain ⟨h0, h1⟩ := hbound it hit
    rw [wrap32_of_range _ (by omega) (by omega), wrap32_of_range _ (by omega) (by omega)]
  · have h32 : getWithinDistance32 Distance (insertAll Distance xs) center k result =
        getWithinDistance Distance (insertAll Distance xs) center k result := by
      generalize insertAll Distance xs = tr at hbound
      obtain ⟨root, sz⟩ := tr
      cases root with
      | null => rfl
      | mk it dp fc ns =>
        simp only [getWithinDistance32, getWithinDistance]
        rw [bfs32_eq_bfs Distance center k hk0 hk1]
        intro t ht x hx
        simp only [List.mem_singleton] at ht
        rw [ht] at hx
        exact hbound x hx
    obtain ⟨out, hp, he⟩ := getWithinDistance_filter Distance (insertAll Distance xs) center k
      hk0 (hm.band center k) (insertAll_wellFormed Distance xs) result
    have hlen : out.length = (bruteForce Distance xs center k).length := by
      rw [hp.length_eq]
      exact ((elements_perm_dedup Distance hm.eq_zero_iff xs).filter _).length_eq
    exact ⟨out, by rw [h32, he, hlen], hlen⟩

theorem band32_agrees_without_overflow_witness :
    IsMetric discreteDist ∧ (∀ x y, discreteDist x y ≤ 2147483647) ∧
      (0 : Int) ≤ 2147483646 ∧ (2147483646 : Int) ≤ 2147483647 ∧
      (∀ x ∈ [false, true], discreteDist x true + 2147483646 ≤ 2147483647) ∧
      ((∀ it ∈ elements (insertAll discreteDist [false, true]), ∀ dp : Int,
        (wrap32 (discreteDist it true - 2147483646) ≤ dp ∧
            dp ≤ wrap32 (discreteDist it true + 2147483646)) ↔
          (discreteDist it true - 2147483646 ≤ dp ∧ dp ≤ discreteDist it true + 2147483646)) ∧
      ∃ out : List Bool,
        getWithinDistance32 discreteDist (insertAll discreteDist [false, true]) true 2147483646
            none =
          Except.ok (((bruteForce discreteDist [false, true] true 2147483646).length : Int),
            (none : Option (List Bool)).map (fun r => r ++ out)) ∧
        out.length = (bruteForce discreteDist [false, true] true 2147483646).length) :=
  ⟨discreteDist_isMetric, by decide, by decide, by decide, by decide,
    band32_agrees_without_overflow discreteDist discreteDist_isMetric (by decide)
      [false, true] true 2147483646 (by decide) (by decide) (by decide) none⟩

end BkTree

/-! ## `EditDistance` -/

/-- C18, evaluated at failing inputs. `EditDistance("a", "")` is 0, where the
edit distance is 1 (one deletion); `EditDistance("ab", "cd")` is 1, where the
edit distance is 2 (two substitutions).  The reference is the Levenshtein
distance with unit costs. -/
theorem EditDistance_differs_from_levenshtein :
    EditDistance ['a'] [] = 0 ∧
      levenshtein Levenshtein.defaultCost ['a'] ([] : List Char) = 1 ∧
      EditDistance ['a', 'b'] ['c', 'd'] = 1 ∧
      levenshtein Levenshtein.defaultCost ['a', 'b'] ['c', 'd'] = 2 :=
  ⟨by decide, by decide, by decide, by decide⟩

/-- C19, evaluated at failing inputs. `EditDistance("a", "")` is 0 although
the strings differ, and the triangle inequality fails for `"a"`, `""`, `"b"`:
`EditDistance("a", "b") = 1` exceeds
`EditDistance("a", "") + EditDistance("", "b") = 0`; so `EditDistance` is not
a metric. -/
theorem EditDistance_violates_metric_contract :
    (EditDistance ['a'] [] = 0 ∧ (['a'] : List Char) ≠ []) ∧
      EditDistance ['a'] [] + EditDistance [] ['b'] < EditDistance ['a'] ['b'] ∧
      ¬ BkTree.IsMetric EditDistance := by
  refine ⟨⟨by decide, by decide⟩, by decide, fun hm => ?_⟩
  have h := (hm.eq_zero_iff ['a'] []).1 (by decide)
  exact absurd h (by decide)

/-! ## Dancing links: `erase` and `restore` -/

namespace DList

variable {T : Type}

theorem setR_of_ne (mem : Nat → DList.Node T) (p : Nat) (q : Option Nat) (a : Nat)
    (h : a ≠ p) : setR mem p q a = mem a := by
  simp [setR, h]

theorem setL_of_ne (mem : Nat → DList.Node T) (p : Nat) (q : Option Nat) (a : Nat)
    (h : a ≠ p) : setL mem p q a = mem a := by
  simp [setL, h]

/-- Writing the links that the neighbours of `x` had before `erase` gives the
memory back. -/
theorem setL_setR_restore (mem : Nat → DList.Node T) (x p n : Nat) (q1 q2 : Option Nat)
    (hp : (mem p).r = some x) (hn : (mem n).l = some x) :
    setL (setR (setL (setR mem p q1) n q2) p (some x)) n (some x) = mem := by
  funext a
  by_cases han : a = n
  · by_cases hap : a = p
    · subst han
      subst hap
      cases hm : mem a with
      | mk v l r =>
        rw [hm] at hp hn
        simp only at hp hn
        simp [setL, setR, hm, hp, hn]
    · subst han
      cases hm : mem a with
      | mk v l r =>
        rw [hm] at hn
        simp only at hn
        simp [setL, setR, hm, hn, hap]
  · by_cases hap : a = p
    · subst hap
      cases hm : mem a with
      | mk v l r =>
        rw [hm] at hp
        simp only at hp
        simp [setL, setR, hm, hp, han]
    · simp [setL, setR, han, hap]

theorem setR_setR_restore (mem : Nat → DList.Node T) (x p : Nat) (q1 : Option Nat)
    (hp : (mem p).r = some x) : setR (setR mem p q1) p (some x) = mem := by
  funext a
  by_cases hap : a = p
  · subst hap
    cases hm : mem a with
    | mk v l r =>
      rw [hm] at hp
      simp only at hp
      simp [setR, hm, hp]
  · simp [setR, hap]

theorem setL_setL_restore (mem : Nat → DList.Node T) (x n : Nat) (q1 : Option Nat)
    (hn : (mem n).l = some x) : setL (setL mem n q1) n (some x) = mem := by
  funext a
  by_cases han : a = n
  · subst han
    cases hm : mem a with
    | mk v l r =>
      rw [hm] at hn
      simp only at hn
      simp [setL, hm, hn]
  · simp [setL, han]

/-- `restore(x)` undoes `erase(x)` when the neighbours of `x` point to `x`. -/
theorem restore_erase_of_hooked (s : DList T) (x : Nat) (h : Hooked s x) :
    restore (erase s x) x = s := by
  obtain ⟨mem, first, last, size⟩ := s
  obtain ⟨hl, hr⟩ := h
  simp only at hl hr
  cases el : (mem x).l with
  | none =>
    rw [el] at hl
    simp only at hl
    cases er : (mem x).r with
    | none =>
      rw [er] at hr
      simp only at hr
      simp [restore, erase, restoreLeft, restoreRight, eraseLeft, eraseRight, el, er, hl, hr]
    | some n =>
      rw [er] at hr
      simp only at hr
      obtain ⟨hn, hnx⟩ := hr
      have hxn : x ≠ n := fun e => hnx e.symm
      simp [restore, erase, restoreLeft, restoreRight, eraseLeft, eraseRight, el, er, hl,
        setL_of_ne _ _ _ _ hxn, setL_setL_restore mem x n _ hn]
  | some p =>
    rw [el] at hl
    simp only at hl
    obtain ⟨hp, hpx⟩ := hl
    have hxp : x ≠ p := fun e => hpx e.symm
    cases er : (mem x).r with
    | none =>
      rw [er] at hr
      simp only at hr
      simp [restore, erase, restoreLeft, restoreRight, eraseLeft, eraseRight, el, er, hr,
        setR_of_ne _ _ _ _ hxp, setR_setR_restore mem x p _ hp]
    | some n =>
      rw [er] at hr
      simp only at hr
      obtain ⟨hn, hnx⟩ := hr
      have hxn : x ≠ n := fun e => hnx e.symm
      simp [restore, erase, restoreLeft, restoreRight, eraseLeft, eraseRight, el, er,
        setR_of_ne _ _ _ _ hxp, setL_of_ne _ _ _ _ hxn, setL_setR_restore mem x p n _ _ hp hn]

end DList

namespace DList

variable {T : Type}

/-- The left neighbour of a member of a linked chain: a member is the first
node, with `l = prev`, or its `l` is another member, whose `r` points back. -/
theorem Linked.left {mem : Nat → DList.Node T} {prev : Option Nat} {ms : List Nat}
    {lst : Option Nat} (hl : Linked mem prev ms lst) (hnd : ms.Nodup) {x : Nat} (hx : x ∈ ms) :
    (ms.head? = some x ∧ (mem x).l = prev) ∨
      ∃ p, p ≠ x ∧ (mem x).l = some p ∧ (mem p).r = some x := by
  induction ms generalizing prev with
  | nil => simp at hx
  | cons a as ih =>
    obtain ⟨h1, h2, h3⟩ := hl
    obtain ⟨ha, hnd2⟩ := List.nodup_cons.1 hnd
    rcases List.mem_cons.1 hx with hxa | hxas
    · subst hxa
      exact Or.inl ⟨rfl, h1⟩
    · have hne : a ≠ x := fun e => ha (e ▸ hxas)
      rcases ih h3 hnd2 hxas with ⟨hh, hxl⟩ | hp
      · exact Or.inr ⟨a, hne, hxl, by rw [h2, hh]⟩
      · exact Or.inr hp

/-- The right neighbour of a member of a linked chain: a member is the last
node, with `r = NULL`, or its `r` is another member, whose `l` points back. -/
theorem Linked.right {mem : Nat → DList.Node T} {prev : Option Nat} {ms : List Nat}
    {lst : Option Nat} (hl : Linked mem prev ms lst) (hnd : ms.Nodup) {x : Nat} (hx : x ∈ ms) :
    (lst = some x ∧ (mem x).r = none) ∨
      ∃ n, n ≠ x ∧ (mem x).r = some n ∧ (mem n).l = some x := by
  induction ms generalizing prev with
  | nil => simp at hx
  | cons a as ih =>
    obtain ⟨h1, h2, h3⟩ := hl
    obtain ⟨ha, hnd2⟩ := List.nodup_cons.1 hnd
    rcases List.mem_cons.1 hx with hxa | hxas
    · subst hxa
      cases as with
      | nil =>
        simp only [Linked] at h3
        exact Or.inl ⟨h3, by simpa using h2⟩
      | cons b bs =>
        obtain ⟨hb1, _, _⟩ := h3
        have hbx : b ≠ x := fun e => ha (by simp [e])
        exact Or.inr ⟨b, hbx, by simpa using h2, hb1⟩
    · exact ih h3 hnd2 hxas

/-- The neighbours of a member of the list point to it. -/
theorem Member.hooked {s : DList T} {x : Nat} (h : Member s x) : Hooked s x := by
  obtain ⟨ms, ⟨hnd, hfirst, hlinked, _⟩, hx⟩ := h
  constructor
  · rcases Linked.left hlinked hnd hx with ⟨hh, hxl⟩ | ⟨p, hpx, hxl, hpr⟩
    · rw [hxl]
      simp only
      rw [hfirst, hh]
    · rw [hxl]
      exact ⟨hpr, hpx⟩
  · rcases Linked.right hlinked hnd hx with ⟨hlast, hxr⟩ | ⟨n, hnx, hxr, hnl⟩
    · rw [hxr]
      exact hlast
    · rw [hxr]
      exact ⟨hnl, hnx⟩

theorem restoreAll_append (s : DList T) (xs : List Nat) (x : Nat) :
    restoreAll s (xs ++ [x]) = restore (restoreAll s xs) x := by
  simp [restoreAll, List.foldl_append]

/-- C12. Erase/restore round trip in last-out-first-in order: if the nodes
`xs = x1..xn` are erased in this order, each a member of the list when it is
erased, then the calls `restore(xn)`, ..., `restore(x1)` give back the state
before the erasures: `first`, `last`, `size` and every field of every node. -/
theorem restore_undoes_erase (s : DList T) (xs : List Nat) (h : Erasable s xs) :
    restoreAll (eraseAll s xs) xs.reverse = s := by
  induction h with
  | nil s => rfl
  | cons s x xs hm _ ih =>
    rw [List.reverse_cons, restoreAll_append]
    have he : eraseAll s (x :: xs) = eraseAll (erase s x) xs := rfl
    rw [he, ih]
    exact restore_erase_of_hooked s x (Member.hooked hm)

theorem three_isList : IsList three [1, 2, 3] := by
  refine ⟨by decide, rfl, ?_, rfl⟩
  simp [Linked, three, threeMem]

theorem three_erase_isList : IsList (erase three 2) [1, 3] := by
  refine ⟨by decide, ?_, ?_, ?_⟩
  · simp [erase, eraseLeft, eraseRight, three, threeMem, setL, setR]
  · simp [Linked, erase, eraseLeft, eraseRight, three, threeMem, setL, setR]
  · simp [erase, eraseLeft, eraseRight, three, threeMem, setL, setR]

theorem three_erasable : Erasable three [2, 1] :=
  Erasable.cons three 2 [1] ⟨[1, 2, 3], three_isList, by decide⟩
    (Erasable.cons (erase three 2) 1 [] ⟨[1, 3], three_erase_isList, by decide⟩
      (Erasable.nil _))

theorem restore_undoes_erase_witness :
    Erasable three [2, 1] ∧ restoreAll (eraseAll three [2, 1]) [2, 1].reverse = three :=
  ⟨three_erasable, restore_undoes_erase three [2, 1] three_erasable⟩

end DList

namespace DList

variable {T : Type}

/-- A chain that does not contain `x` and does not start right after `x` is
still linked in a memory that changed only links to `x`. -/
theorem Linked.unchanged {mem mem2 : Nat → DList.Node T} {x : Nat} {prev : Option Nat}
    {ms : List Nat} {lst : Option Nat} (hl : Linked mem prev ms lst) (hx : x ∉ ms)
    (hprev : prev ≠ some x)
    (hL : ∀ a ∈ ms, (mem a).l ≠ some x → (mem2 a).l = (mem a).l)
    (hR : ∀ a ∈ ms, (mem a).r ≠ some x → (mem2 a).r = (mem a).r) :
    Linked mem2 prev ms lst := by
  induction ms generalizing prev with
  | nil => exact hl
  | cons a as ih =>
    obtain ⟨h1, h2, h3⟩ := hl
    have hxa : x ≠ a := fun e => hx (by simp [e])
    have hxas : x ∉ as := fun e => hx (List.mem_cons_of_mem a e)
    have hr : (mem a).r ≠ some x := by
      rw [h2]
      intro e
      exact hxas (List.mem_of_mem_head? e)
    refine ⟨?_, ?_, ?_⟩
    · rw [hL a (by simp) (by rw [h1]; exact hprev), h1]
    · rw [hR a (by simp) hr, h2]
    · exact ih h3 hxas (fun e => hxa (Option.some.inj e).symm)
        (fun b hb => hL b (List.mem_cons_of_mem a hb))
        (fun b hb => hR b (List.mem_cons_of_mem a hb))

/-- Taking `x` out of a linked chain: in a memory where the links to `x` of the
other members were replaced by the links of `x`, the remaining members are
linked, and the last one is the `l` of `x` if `x` was last. -/
theorem Linked.erase_member {mem mem2 : Nat → DList.Node T} {x : Nat} {prev : Option Nat}
    {ms : List Nat} {lst : Option Nat} (hl : Linked mem prev ms lst) (hnd : ms.Nodup)
    (hx : x ∈ ms) (hprev : prev ≠ some x)
    (hL : ∀ a ∈ ms, a ≠ x →
      (mem2 a).l = if (mem a).l = some x then (mem x).l else (mem a).l)
    (hR : ∀ a ∈ ms, a ≠ x →
      (mem2 a).r = if (mem a).r = some x then (mem x).r else (mem a).r) :
    Linked mem2 prev (ms.erase x) (if (mem x).r = none then (mem x).l else lst) := by
  induction ms generalizing prev with
  | nil => simp at hx
  | cons a as ih =>
    obtain ⟨h1, h2, h3⟩ := hl
    obtain ⟨ha, hnd2⟩ := List.nodup_cons.1 hnd
    by_cases hax : a = x
    · subst hax
      rw [List.erase_cons_head]
      cases as with
      | nil =>
        simp only [Linked] at h3
        have hr : (mem a).r = none := by simpa using h2
        simp only [hr, if_true, Linked]
        exact h1
      | cons b bs =>
        obtain ⟨hb1, hb2, hb3⟩ := h3
        have hr : (mem a).r = some b := by simpa using h2
        have hba : b ≠ a := fun e => ha (by simp [e])
        have habs : a ∉ bs := fun e => ha (List.mem_cons_of_mem b e)
        have hbr : (mem b).r ≠ some a := by
          rw [hb2]
          intro e
          exact habs (List.mem_of_mem_head? e)
        simp only [hr, if_false]
        refine ⟨?_, ?_, ?_⟩
        · rw [hL b (by simp) hba, hb1, if_pos rfl, h1]
        · rw [hR b (by simp) hba, if_neg hbr, hb2]
        · refine Linked.unchanged hb3 habs (fun e => hba (Option.some.inj e)) ?_ ?_
          · intro c hc hcl
            have hca : c ≠ a := fun e => habs (e ▸ hc)
            rw [hL c (by simp [hc]) hca, if_neg hcl]
          · intro c hc hcr
            have hca : c ≠ a := fun e => habs (e ▸ hc)
            rw [hR c (by simp [hc]) hca, if_neg hcr]
    · have hxas : x ∈ as := by
        rcases List.mem_cons.1 hx with e | e
        · exact absurd e.symm hax
        · exact e
      rw [List.erase_cons_tail (by simpa using hax)]
      have hal : (mem a).l ≠ some x := by rw [h1]; exact hprev
      have ih2 := ih h3 hnd2 hxas (fun e => hax (Option.some.inj e))
        (fun b hb => hL b (List.mem_cons_of_mem a hb))
        (fun b hb => hR b (List.mem_cons_of_mem a hb))
      refine ⟨?_, ?_, ih2⟩
      · rw [hL a (by simp) hax, if_neg hal, h1]
      · rw [hR a (by simp) hax]
        cases as with
        | nil => simp at hxas
        | cons b bs =>
          obtain ⟨hb1, hb2, hb3⟩ := h3
          by_cases hbx : b = x
          · subst hbx
            have hr : (mem a).r = some b := by simpa using h2
            rw [if_pos hr, List.erase_cons_head, hb2]
          · have hr : (mem a).r ≠ some x := by
              rw [h2]
              intro e
              exact hbx (by simpa using e)
            rw [if_neg hr, h2, List.erase_cons_tail (by simpa using hbx)]
            rfl

end DList

namespace DList

variable {T : Type}

/-- In a list, a member `a` has `r = x` exactly when the member `x` has
`l = a`, and `l = x` exactly when `x` has `r = a`. -/
theorem IsList.neighbours {s : DList T} {ms : List Nat} (h : IsList s ms) {x a : Nat}
    (hx : x ∈ ms) (ha : a ∈ ms) :
    ((s.mem a).r = some x ↔ (s.mem x).l = some a) ∧
      ((s.mem a).l = some x ↔ (s.mem x).r = some a) := by
  obtain ⟨hnd, _, hlinked, _⟩ := h
  refine ⟨⟨fun e => ?_, fun e => ?_⟩, ⟨fun e => ?_, fun e => ?_⟩⟩
  · rcases Linked.right hlinked hnd ha with ⟨_, hr⟩ | ⟨n, _, hr, hl⟩
    · rw [hr] at e; exact absurd e (by simp)
    · rw [hr] at e
      rw [← Option.some.inj e]
      exact hl
  · rcases Linked.left hlinked hnd hx with ⟨_, hl⟩ | ⟨p, _, hl, hr⟩
    · rw [hl] at e; exact absurd e (by simp)
    · rw [hl] at e
      rw [← Option.some.inj e]
      exact hr
  · rcases Linked.left hlinked hnd ha with ⟨_, hl⟩ | ⟨p, _, hl, hr⟩
    · rw [hl] at e; exact absurd e (by simp)
    · rw [hl] at e
      rw [← Option.some.inj e]
      exact hr
  · rcases Linked.right hlinked hnd hx with ⟨_, hr⟩ | ⟨n, _, hr, hl⟩
    · rw [hr] at e; exact absurd e (by simp)
    · rw [hr] at e
      rw [← Option.some.inj e]
      exact hl

/-- What `erase(x)` leaves in the members of the list: a link to `x` is
replaced by the corresponding link of `x`, nothing else changes. -/
theorem IsList.erase_mem {s : DList T} {ms : List Nat} (h : IsList s ms) {x a : Nat}
    (hx : x ∈ ms) (ha : a ∈ ms) :
    ((erase s x).mem a).l = (if (s.mem a).l = some x then (s.mem x).l else (s.mem a).l) ∧
      ((erase s x).mem a).r = (if (s.mem a).r = some x then (s.mem x).r else (s.mem a).r) := by
  obtain ⟨hn1, hn2⟩ := IsList.neighbours h hx ha
  obtain ⟨hkl, hkr⟩ := Member.hooked ⟨ms, h, hx⟩
  obtain ⟨mem, first, last, size⟩ := s
  simp only at hn1 hn2 hkl hkr ⊢
  cases el : (mem x).l with
  | none =>
    rw [el] at hn1
    have h1 : ¬ (mem a).r = some x := fun e => absurd (hn1.1 e) (by simp)
    cases er : (mem x).r with
    | none =>
      rw [er] at hn2
      have h2 : ¬ (mem a).l = some x := fun e => absurd (hn2.1 e) (by simp)
      simp [erase, eraseLeft, eraseRight, el, er, h1, h2]
    | some n =>
      rw [er] at hn2 hkr
      simp only at hkr
      have hxn : x ≠ n := fun e => hkr.2 e.symm
      by_cases han : a = n
      · have h2 : (mem a).l = some x := hn2.2 (by rw [han])
        subst han
        simp [erase, eraseLeft, eraseRight, el, er, h1, h2, setL]
      · have h2 : ¬ (mem a).l = some x := fun e => han (Option.some.inj (hn2.1 e)).symm
        simp [erase, eraseLeft, eraseRight, el, er, h1, h2, setL, han]
  | some p =>
    rw [el] at hn1 hkl
    simp only at hkl
    have hxp : x ≠ p := fun e => hkl.2 e.symm
    cases er : (mem x).r with
    | none =>
      rw [er] at hn2
      have h2 : ¬ (mem a).l = some x := fun e => absurd (hn2.1 e) (by simp)
      by_cases hap : a = p
      · have h1 : (mem a).r = some x := hn1.2 (by rw [hap])
        subst hap
        simp [erase, eraseLeft, eraseRight, el, er, h1, h2, setR, hxp]
      · have h1 : ¬ (mem a).r = some x := fun e => hap (Option.some.inj (hn1.1 e)).symm
        simp [erase, eraseLeft, eraseRight, el, er, h1, h2, setR, hap, hxp]
    | some n =>
      rw [er] at hn2 hkr
      simp only at hkr
      have hxn : x ≠ n := fun e => hkr.2 e.symm
      by_cases hap : a = p
      · have h1 : (mem a).r = some x := hn1.2 (by rw [hap])
        subst hap
        by_cases han : a = n
        · have h2 : (mem a).l = some x := hn2.2 (by rw [han])
          subst han
          simp [erase, eraseLeft, eraseRight, el, er, h1, h2, setR, setL, hxp]
        · have h2 : ¬ (mem a).l = some x := fun e => han (Option.some.inj (hn2.1 e)).symm
          simp [erase, eraseLeft, eraseRight, el, er, h1, h2, setR, setL, han, hxp, hxn]
      · have h1 : ¬ (mem a).r = some x := fun e => hap (Option.some.inj (hn1.1 e)).symm
        by_cases han : a = n
        · have h2 : (mem a).l = some x := hn2.2 (by rw [han])
          subst han
          simp [erase, eraseLeft, eraseRight, el, er, h1, h2, setR, setL, hap, hxp]
        · have h2 : ¬ (mem a).l = some x := fun e => han (Option.some.inj (hn2.1 e)).symm
          simp [erase, eraseLeft, eraseRight, el, er, h1, h2, setR, setL, hap, han, hxp, hxn]

end DList

namespace DList

variable {T : Type}

theorem erase_size (s : DList T) (x : Nat) : (erase s x).size = s.size - 1 := by
  obtain ⟨mem, first, last, size⟩ := s
  simp only [erase, eraseLeft, eraseRight]
  cases (mem x).l <;> simp only <;> split <;> rfl

theorem erase_first (s : DList T) (x : Nat) :
    (erase s x).first = if (s.mem x).l = none then (s.mem x).r else s.first := by
  obtain ⟨mem, first, last, size⟩ := s
  simp only [erase, eraseLeft, eraseRight]
  cases el : (mem x).l <;> simp only <;> split <;> simp

theorem erase_last (s : DList T) (x : Nat) (h : Hooked s x) :
    (erase s x).last = if (s.mem x).r = none then (s.mem x).l else s.last := by
  obtain ⟨mem, first, last, size⟩ := s
  obtain ⟨hl, _⟩ := h
  simp only at hl
  cases el : (mem x).l with
  | none =>
    cases er : (mem x).r <;> simp [erase, eraseLeft, eraseRight, el, er]
  | some p =>
    rw [el] at hl
    simp only at hl
    have hxp : x ≠ p := fun e => hl.2 e.symm
    cases er : (mem x).r <;> simp [erase, eraseLeft, eraseRight, el, er, setR, hxp]

/-- After `erase(x)` of a member, the state is the list of the other members,
in the same order. -/
theorem IsList.after_erase {s : DList T} {ms : List Nat} (h : IsList s ms) {x : Nat} (hx : x ∈ ms) :
    IsList (DList.erase s x) (ms.erase x) := by
  have hk : Hooked s x := Member.hooked ⟨ms, h, hx⟩
  have hmem := fun a (ha : a ∈ ms) => IsList.erase_mem h hx ha
  obtain ⟨hnd, hfirst, hlinked, hsize⟩ := h
  refine ⟨hnd.erase x, ?_, ?_, ?_⟩
  · rw [erase_first]
    cases ms with
    | nil => simp at hx
    | cons a as =>
      have hleft := Linked.left hlinked hnd hx
      obtain ⟨h1, h2, _⟩ := hlinked
      by_cases hax : a = x
      · subst hax
        rw [List.erase_cons_head, if_pos h1, h2]
      · have hxl : (s.mem x).l ≠ none := by
          rcases hleft with ⟨hh, _⟩ | ⟨p, _, hl, _⟩
          · exact absurd (Option.some.inj hh) hax
          · rw [hl]; simp
        rw [if_neg hxl, hfirst, List.erase_cons_tail (by simpa using hax)]
        rfl
  · rw [erase_last s x hk]
    exact Linked.erase_member hlinked hnd hx (by simp) (fun a ha _ => (hmem a ha).1)
      (fun a ha _ => (hmem a ha).2)
  · rw [erase_size, hsize, List.length_erase_of_mem hx]
    have hpos : 0 < ms.length := List.length_pos_of_mem hx
    omega

/-- Pairwise different members of a list can be erased one after the other, in
any order. -/
theorem Erasable.of_members {s : DList T} {ms : List Nat} (h : IsList s ms) (xs : List Nat)
    (hnd : xs.Nodup) (hsub : ∀ x ∈ xs, x ∈ ms) : Erasable s xs := by
  induction xs generalizing s ms with
  | nil => exact Erasable.nil s
  | cons x xs ih =>
    obtain ⟨hx, hnd2⟩ := List.nodup_cons.1 hnd
    have hxm : x ∈ ms := hsub x (by simp)
    refine Erasable.cons s x xs ⟨ms, h, hxm⟩ (ih (IsList.after_erase h hxm) hnd2 ?_)
    intro y hy
    have hyx : y ≠ x := fun e => hx (e ▸ hy)
    exact (List.mem_erase_of_ne hyx).2 (hsub y (List.mem_cons_of_mem x hy))

end DList

/-! ## `getWithinDistance` with the `int` band test of the code -/

namespace BkTree

variable {T : Type}

/-- The 32-bit queue loop computes what the exact one computes when `d - k`
and `d + k` are computed exactly at every item at or below a queued pointer. -/
theorem bfs32_eq_bfs_of_exact (Distance : T → T → Int) (center : T) (k : Int)
    (q : List (Node T)) (found : Int) (result : Option (List T))
    (hq : ∀ t ∈ q, ∀ x ∈ Node.items t,
      wrap32 (Distance x center - k) = Distance x center - k ∧
        wrap32 (Distance x center + k) = Distance x center + k) :
    bfs32 Distance center k q found result = bfs Distance center k q found result := by
  induction q, found, result using bfs.induct Distance center k with
  | case1 found result => simp [bfs32, bfs]
  | case2 q found result ih =>
    rw [bfs32, bfs]
    exact ih (fun t ht => hq t (List.mem_cons_of_mem _ ht))
  | case3 it dp fc ns q found result d ih =>
    obtain ⟨hlo, hhi⟩ := hq (Node.mk it dp fc ns) (by simp) it (by simp [Node.items])
    have hnext : ∀ t ∈ pushChildren (Distance it center) k fc q, ∀ x ∈ Node.items t,
        wrap32 (Distance x center - k) = Distance x center - k ∧
          wrap32 (Distance x center + k) = Distance x center + k := by
      intro t ht x hx
      rcases mem_pushChildren _ _ _ _ _ ht with h | h
      · exact hq t (List.mem_cons_of_mem _ h) x hx
      · exact hq (Node.mk it dp fc ns) (by simp) x
          (by simp [Node.items, items_of_mem_chain fc t h x hx])
    rw [bfs32, bfs]
    simp only [pushChildren32_eq _ _ hlo hhi]
    by_cases hd : Distance it center ≤ k
    · simp only [d, hd, dite_true, if_true] at ih ⊢
      exact ih hnext
    · simp only [d, hd, dite_false, if_false] at ih ⊢
      exact ih hnext

/-- The code's `getWithinDistance` (32-bit band test) returns what the exact
one returns when `d - k` and `d + k` are computed exactly at every stored
element. -/
theorem getWithinDistance32_eq_of_exact (Distance : T → T → Int) (tr : BkTree T) (center : T)
    (k : Int) (result : Option (List T))
    (hex : ∀ x ∈ elements tr,
      wrap32 (Distance x center - k) = Distance x center - k ∧
        wrap32 (Distance x center + k) = Distance x center + k) :
    getWithinDistance32 Distance tr center k result =
      getWithinDistance Distance tr center k result := by
  obtain ⟨root, sz⟩ := tr
  cases root with
  | null => rfl
  | mk it dp fc ns =>
    simp only [getWithinDistance32, getWithinDistance]
    rw [bfs32_eq_bfs_of_exact Distance center k]
    intro t ht x hx
    simp only [List.mem_singleton] at ht
    rw [ht] at hx
    exact hex x hx

/-- For a metric, `d - k` and `d + k` are computed exactly at every stored
element when `k ≥ 0` and no `Distance(x, center) + k` over the inserted elements
exceeds `2^31 - 1`. -/
theorem exact_of_sum_le (Distance : T → T → Int) (hm : IsMetric Distance) (xs : List T)
    (center : T) (k : Int) (hk : 0 ≤ k)
    (hsum : ∀ x ∈ xs, Distance x center + k ≤ 2147483647) :
    ∀ x ∈ elements (insertAll Distance xs),
      wrap32 (Distance x center - k) = Distance x center - k ∧
        wrap32 (Distance x center + k) = Distance x center + k := by
  intro x hx
  have h0 := hm.nonneg x center
  have h1 := hsum x (((elements_insertAll Distance hm.eq_zero_iff xs).2 x).1 hx)
  exact ⟨wrap32_of_range _ (by omega) (by omega), wrap32_of_range _ (by omega) (by omega)⟩

theorem getWithinDistance32_at_overflow (r : List Bool) :
    getWithinDistance32 discreteDist (insertAll discreteDist [false, true]) true 2147483647
        (some r) = Except.ok (1, some (r ++ [false])) := by
  simp [getWithinDistance32, insertAll, BkTree.insert, scan, new, bfs32, pushChildren32,
    discreteDist, wrap32]

/-- C1, as stated, fails on the `int` band test of the code: with the discrete
metric on two points, the inserts `false, true`, `center = true` and
`k = 2^31 - 1`, `getWithinDistance` appends only `false` (at the root `d + k`
is `2^31`, which wraps to `-2^31`, so the child is not queued), although the
inserted element `true` is at distance 0 from `center`; so the appended set is
not the set of inserted elements within `k`. -/
theorem getWithinDistance32_set_overflow_counterexample :
    IsMetric discreteDist ∧ (0 : Int) ≤ 2147483647 ∧
      getWithinDistance32 discreteDist (insertAll discreteDist [false, true]) true 2147483647
        (some []) = Except.ok (1, some ([] ++ [false])) ∧
      (true ∈ [false, true] ∧ discreteDist true true ≤ 2147483647) ∧ true ∉ [false] ∧
      ¬ ∃ (n : Int) (out : List Bool),
        getWithinDistance32 discreteDist (insertAll discreteDist [false, true]) true 2147483647
          (some []) = Except.ok (n, some ([] ++ out)) ∧
        ∀ x, x ∈ out ↔ (x ∈ [false, true] ∧ discreteDist x true ≤ 2147483647) := by
  refine ⟨discreteDist_isMetric, by decide, getWithinDistance32_at_overflow [], by decide,
    by decide, ?_⟩
  rintro ⟨n, out, he, hiff⟩
  rw [getWithinDistance32_at_overflow] at he
  simp only [List.nil_append, Except.ok.injEq, Prod.mk.injEq, Option.some.injEq] at he
  have hmem := (hiff true).2 (by decide)
  rw [← he.2] at hmem
  exact absurd hmem (by decide)

/-- C1, amended. For a metric `Distance`, any sequence `xs` of inserts into a
new tree, any `center` and any `k ≥ 0` such that `Distance(x, center) + k` is at
most `2^31 - 1` for every inserted element `x`: `getWithinDistance(center, k,
result)`, with `d - k` and `d + k` computed in 32-bit `int`, returns normally
and the elements `out` it appends to `*result` are, as a set, exactly the
inserted elements within distance `k` of `center`. -/
theorem getWithinDistance32_set_eq_bruteForce (Distance : T → T → Int) (hm : IsMetric Distance)
    (xs : List T) (center : T) (k : Int) (hk : 0 ≤ k)
    (hsum : ∀ x ∈ xs, Distance x center + k ≤ 2147483647) (r : List T) :
    ∃ (n : Int) (out : List T),
      getWithinDistance32 Distance (insertAll Distance xs) center k (some r) =
        Except.ok (n, some (r ++ out)) ∧
      ∀ x, x ∈ out ↔ (x ∈ xs ∧ Distance x center ≤ k) := by
  rw [getWithinDistance32_eq_of_exact Distance _ center k (some r)
    (exact_of_sum_le Distance hm xs center k hk hsum)]
  exact getWithinDistance_exact_set Distance hm xs center k hk r

theorem getWithinDistance32_set_eq_bruteForce_witness :
    IsMetric discreteDist ∧ (0 : Int) ≤ 2147483646 ∧
    (∀ x ∈ [false, true], discreteDist x true + 2147483646 ≤ 2147483647) ∧
    ∃ (n : Int) (out : List Bool),
      getWithinDistance32 discreteDist (insertAll discreteDist [false, true]) true 2147483646
        (some [true]) = Except.ok (n, some ([true] ++ out)) ∧
      ∀ x, x ∈ out ↔ (x ∈ [false, true] ∧ discreteDist x true ≤ 2147483646) :=
  ⟨discreteDist_isMetric, by decide, by decide,
    getWithinDistance32_set_eq_bruteForce discreteDist discreteDist_isMetric [false, true] true
      2147483646 (by decide) (by decide) [true]⟩

theorem getWithinDistance32_at_overflow_swapped (r : List Bool) :
    getWithinDistance32 discreteDist (insertAll discreteDist [true, false]) false 2147483647
        (some r) = Except.ok (1, some (r ++ [true])) := by
  simp [getWithinDistance32, insertAll, BkTree.insert, scan, new, bfs32, pushChildren32,
    discreteDist, wrap32]

/-- C2, as stated, fails on the `int` band test of the code: with the discrete
metric on two points, the inserts `true, false`, `center = false` and
`k = 2^31 - 1`, `getWithinDistance` returns 1 and appends one element, while
the brute-force count of inserted elements within `k` is 2. -/
theorem getWithinDistance32_count_overflow_counterexample :
    IsMetric discreteDist ∧ (0 : Int) ≤ 2147483647 ∧
      getWithinDistance32 discreteDist (insertAll discreteDist [true, false]) false 2147483647
        (some []) = Except.ok (1, some ([] ++ [true])) ∧
      (bruteForce discreteDist [true, false] false 2147483647).length = 2 ∧
      ¬ ∃ out : List Bool,
        getWithinDistance32 discreteDist (insertAll discreteDist [true, false]) false 2147483647
          (some []) =
            Except.ok (((bruteForce discreteDist [true, false] false 2147483647).length : Int),
              (some []).map (fun r => r ++ out)) ∧
        out.length = (bruteForce discreteDist [true, false] false 2147483647).length := by
  have hb : (bruteForce discreteDist [true, false] false 2147483647).length = 2 := by decide
  refine ⟨discreteDist_isMetric, by decide, getWithinDistance32_at_overflow_swapped [], hb, ?_⟩
  rintro ⟨out, he, _⟩
  rw [getWithinDistance32_at_overflow_swapped, hb] at he
  simp at he

/-- C2, amended. For a metric `Distance`, any sequence `xs` of inserts, any
`center` and any `k ≥ 0` such that `Distance(x, center) + k` is at most
`2^31 - 1` for every inserted element `x`: the integer returned by
`getWithinDistance(center, k)`, with `d - k` and `d + k` computed in 32-bit
`int`, is the number of pairwise-distinct inserted elements within distance `k`
of `center` (the brute-force count), with or without a collector, and it is the
number of elements `out` appended to the collector when one is supplied. -/
theorem getWithinDistance32_count_eq_bruteForce [DecidableEq T] (Distance : T → T → Int)
    (hm : IsMetric Distance) (xs : List T) (center : T) (k : Int) (hk : 0 ≤ k)
    (hsum : ∀ x ∈ xs, Distance x center + k ≤ 2147483647) (result : Option (List T)) :
    ∃ out : List T,
      getWithinDistance32 Distance (insertAll Distance xs) center k result =
        Except.ok (((bruteForce Distance xs center k).length : Int),
          result.map (fun r => r ++ out)) ∧
      out.length = (bruteForce Distance xs center k).length := by
  rw [getWithinDistance32_eq_of_exact Distance _ center k result
    (exact_of_sum_le Distance hm xs center k hk hsum)]
  exact getWithinDistance_exact_count Distance hm xs center k hk result

theorem getWithinDistance32_count_eq_bruteForce_witness :
    IsMetric discreteDist ∧ (0 : Int) ≤ 2147483646 ∧
    (∀ x ∈ [true, false], discreteDist x false + 2147483646 ≤ 2147483647) ∧
    ∃ out : List Bool,
      getWithinDistance32 discreteDist (insertAll discreteDist [true, false]) false 2147483646
        (some [false]) =
          Except.ok (((bruteForce discreteDist [true, false] false 2147483646).length : Int),
            (some [false]).map (fun r => r ++ out)) ∧
      out.length = (bruteForce discreteDist [true, false] false 2147483646).length :=
  ⟨discreteDist_isMetric, by decide, by decide,
    getWithinDistance32_count_eq_bruteForce discreteDist discreteDist_isMetric [true, false]
      false 2147483646 (by decide) (by decide) (some [false])⟩

/-- C8. For every distance function (metric or not), every reachable state,
every `center` and all integers `0 ≤ k1 ≤ k2` for which the integer arithmetic
of the band test is exact, that is, `d - k2` and `d + k2` stay in the `int`
range `[-2^31, 2^31 - 1]` for the distance `d` of every stored element to
`center` (then so do `d - k1` and `d + k1`): both calls of `getWithinDistance`,
with `d - k` and `d + k` computed in 32-bit `int`, return normally and the
count for `k1` is at most the count for `k2`. -/
theorem getWithinDistance32_mono (Distance : T → T → Int) (xs : List T) (center : T)
    (k1 k2 : Int) (h1 : 0 ≤ k1) (h12 : k1 ≤ k2)
    (hexact : ∀ x ∈ elements (insertAll Distance xs),
      -2147483648 ≤ Distance x center - k2 ∧ Distance x center + k2 ≤ 2147483647)
    (result : Option (List T)) :
    ∃ (n1 n2 : Int) (r1 r2 : Option (List T)),
      getWithinDistance32 Distance (insertAll Distance xs) center k1 result =
        Except.ok (n1, r1) ∧
      getWithinDistance32 Distance (insertAll Distance xs) center k2 result =
        Except.ok (n2, r2) ∧
      n1 ≤ n2 := by
  have hex1 : ∀ x ∈ elements (insertAll Distance xs),
      wrap32 (Distance x center - k1) = Distance x center - k1 ∧
        wrap32 (Distance x center + k1) = Distance x center + k1 := by
    intro x hx
    obtain ⟨ha, hb⟩ := hexact x hx
    exact ⟨wrap32_of_range _ (by omega) (by omega), wrap32_of_range _ (by omega) (by omega)⟩
  have hex2 : ∀ x ∈ elements (insertAll Distance xs),
      wrap32 (Distance x center - k2) = Distance x center - k2 ∧
        wrap32 (Distance x center + k2) = Distance x center + k2 := by
    intro x hx
    obtain ⟨ha, hb⟩ := hexact x hx
    exact ⟨wrap32_of_range _ (by omega) (by omega), wrap32_of_range _ (by omega) (by omega)⟩
  rw [getWithinDistance32_eq_of_exact Distance _ center k1 result hex1,
    getWithinDistance32_eq_of_exact Distance _ center k2 result hex2]
  exact getWithinDistance_exact_mono Distance xs center k1 k2 h1 h12 result

theorem getWithinDistance32_mono_witness :
    (0 : Int) ≤ 1 ∧ (1 : Int) ≤ 2147483646 ∧
    (∀ x ∈ elements (insertAll discreteDist [false, true]),
      -2147483648 ≤ discreteDist x true - 2147483646 ∧
        discreteDist x true + 2147483646 ≤ 2147483647) ∧
    ∃ (n1 n2 : Int) (r1 r2 : Option (List Bool)),
      getWithinDistance32 discreteDist (insertAll discreteDist [false, true]) true 1 none =
        Except.ok (n1, r1) ∧
      getWithinDistance32 discreteDist (insertAll discreteDist [false, true]) true 2147483646
        none = Except.ok (n2, r2) ∧
      n1 ≤ n2 :=
  ⟨by decide, by decide, by decide,
    getWithinDistance32_mono discreteDist [false, true] true 1 2147483646 (by decide)
      (by decide) (by decide) none⟩

end BkTree
